import Mathlib

/-!
Verification of the centidb/acid collection engine.

This file shallowly embeds the core of `src/centidb/centidb.py` (record and
index maintenance, batched physical records, counters) and the relevant
parts of `src/acid/iterators.py`.  Pure Python functions become Lean
functions; the mutable storage engine becomes a sorted association list that
operations transform explicitly; Python exceptions become `Except` values.

External collaborators that are declared out of scope by the specification
(the `keycoder` structured-key codec and the concrete storage engines) are
modelled from the spec's description of their interfaces: the codec is a
concrete order-preserving, self-delimiting tuple encoding, and the engine is
an ordered byte key-value map whose `iter(start, reverse)` yields entries
`>= start` ascending (resp. `<= start` descending, including `start`).
-/

namespace CentiSpec

/-- Byte strings are modelled as lists of naturals (each conceptually < 256). -/
abbrev Bytes := List Nat

/-- A structured record key: an ordered tuple of primitives, modelled as a
list of naturals (primitive ordering is abstracted to `Nat` ordering). -/
abbrev KeyTup := List Nat

/-- Strict lexicographic byte-string comparison, the order of the engine's
key space (and also, on `KeyTup`, Python's tuple comparison). -/
def bltB : Bytes → Bytes → Bool
  | [], [] => false
  | [], _ :: _ => true
  | _ :: _, [] => false
  | a :: s, b :: t => a < b || (a == b && bltB s t)

/-- Non-strict lexicographic comparison. -/
def bleB (x y : Bytes) : Bool := !(bltB y x)

/-- Python truthiness of an optional key tuple: `None` and `()` are falsy. -/
def truthyK : Option KeyTup → Bool
  | none => false
  | some k => !k.isEmpty

/-- Whether `p` is a (bytestring) prefix of `k`. -/
def hasPfx : Bytes → Bytes → Bool
  | [], _ => true
  | _ :: _, [] => false
  | a :: p, b :: k => a == b && hasPfx p k

/-! ### Key codec (modelled)

Modelled from the spec: the external `keycoder` module packs ordered tuples
to bytes such that packing is injective, order-preserving, self-delimiting
and prefix-respecting, and `unpacks(prefix, s)` recovers the list of packed
tuples (empty on prefix mismatch).  We realise this interface with a
concrete unary encoding: element `n` becomes `n` copies of byte 3 followed
by byte 2, and a tuple is terminated by byte 1. -/

/-- Modelled from the spec: encoding of one primitive key element. -/
def encElem (n : Nat) : Bytes := List.replicate n 3 ++ [2]

/-- Modelled from the spec: encoding of one key tuple (self-delimiting). -/
def encTup : KeyTup → Bytes
  | [] => [1]
  | n :: r => encElem n ++ encTup r

/-- Modelled from the spec: `keycoder.pack_int`, a self-delimiting,
prefix-free integer varint.  Values below 240 use a single byte (as the
real codec does, which matters because record values slice off exactly one
leading packer-prefix byte); larger values use an escape byte. -/
def packInt (n : Nat) : Bytes :=
  if n < 240 then [n + 6] else 246 :: (List.replicate (n - 240) 5 ++ [4])

/-- Helper for `unpackInt`: read the unary escape form. -/
def unaryInt : Bytes → Nat → Option (Nat × Bytes)
  | 4 :: r, c => some (c, r)
  | 5 :: r, c => unaryInt r (c + 1)
  | _, _ => none

/-- Modelled from the spec: inverse of `packInt`, returning the value and
the remaining bytes. -/
def unpackInt : Bytes → Option (Nat × Bytes)
  | [] => none
  | b :: r =>
    if b = 246 then (unaryInt r 0).map (fun p => (240 + p.1, p.2))
    else if 6 ≤ b ∧ b ≤ 245 then some (b - 6, r) else none

/-- Parse one encoded element: a run of 3-bytes closed by a 2-byte. -/
def parseElem : Bytes → Option (Nat × Bytes)
  | 2 :: r => some (0, r)
  | 3 :: r => (parseElem r).map (fun p => (p.1 + 1, p.2))
  | _ => none

/-- Parse one encoded tuple (fuelled by the number of elements). -/
def parseTup : Nat → Bytes → Option (KeyTup × Bytes)
  | 0, b =>
    match b with
    | 1 :: r => some ([], r)
    | _ => none
  | fuel + 1, b =>
    match b with
    | 1 :: r => some ([], r)
    | b =>
      match parseElem b with
      | none => none
      | some (n, r) =>
        match parseTup fuel r with
        | none => none
        | some (t, r') => some (n :: t, r')

/-- Parse a maximal run of encoded tuples (fuelled). -/
def parseTups : Nat → Bytes → Option (List KeyTup)
  | _, [] => some []
  | 0, _ :: _ => none
  | fuel + 1, b₀ :: b =>
    match parseTup (fuel + 1) (b₀ :: b) with
    | none => none
    | some (t, r) =>
      match parseTups fuel r with
      | none => none
      | some ts => some (t :: ts)

/-- Modelled from the spec: `keycoder.packs(prefix, tups)` — the prefix
followed by the concatenated tuple encodings. -/
def packsL (pfx : Bytes) (ts : List KeyTup) : Bytes :=
  pfx ++ (ts.map encTup).flatten

/-- Modelled from the spec: `keycoder.unpacks(prefix, s)` — the list of
tuples packed after `prefix`, or `[]` when `s` does not carry `prefix`
(the prefix-mismatch signal `Collection._logical_iter` relies on) or is
otherwise not a well-formed key image. -/
def unpacks (pfx : Bytes) (s : Bytes) : List KeyTup :=
  if hasPfx pfx s then ((parseTups s.length (s.drop pfx.length)).getD []) else []

/-! ### Functions from `centidb.py` that are codec-adjacent -/

/-- Embeds `centidb.next_greater` (src/centidb/centidb.py:93-110): strip
trailing 0xFF bytes, then increment the last remaining byte; the empty
string results when the input is all-0xFF.  Byte 0xFF is the value 255. -/
def next_greater (s : Bytes) : Bytes :=
  match ((s.reverse.dropWhile (· == 255)).reverse).getLast? with
  | none => []
  | some c => ((s.reverse.dropWhile (· == 255)).reverse).dropLast ++ [c + 1]

/-- Helper for `decode_offsets`: read `count` deltas, prefix-summing from
`pos`, returning the offsets after the leading 0 and the remaining bytes. -/
def offsLoop : Nat → Nat → Bytes → Option (List Nat × Bytes)
  | 0, _, r => some ([], r)
  | count + 1, pos, r => do
    let (d, r') ← unpackInt r
    let (rest, r'') ← offsLoop count (pos + d) r'
    some ((pos + d) :: rest, r'')

/-- Embeds `decode_offsets` (src/centidb/centidb.py:79-88 and the equivalent
src/acid/iterators.py:27-40): a leading varint count, then that many varint
deltas accumulated into an ascending offset array starting at 0; also
returns how many bytes were consumed (`io.tell()` / `pos`). -/
def decode_offsets (s : Bytes) : Option (List Nat × Nat) := do
  let (count, r) ← unpackInt s
  let (offs, r') ← offsLoop count 0 r
  some (0 :: offs, s.length - r'.length)

/-- Running sums of a list of deltas, continuing from `pos`. -/
def sumsFrom : Nat → List Nat → List Nat
  | _, [] => []
  | pos, a :: r => (pos + a) :: sumsFrom (pos + a) r

/-- The spec's offset array for a list of lengths: the ascending array of
`N + 1` offsets starting at 0 obtained by prefix-summing the deltas. -/
def offsetsOf (lens : List Nat) : List Nat := 0 :: sumsFrom 0 lens

/-! ### Engine model

Modelled from the spec (§6 External interfaces): an ordered byte key-value
store kept as an association list sorted by `bltB` on keys. -/

abbrev Engine := List (Bytes × Bytes)

/-- Sortedness invariant of an engine state. -/
def ESorted (e : Engine) : Prop :=
  List.Pairwise (fun x y : Bytes × Bytes => bltB x.1 y.1 = true) e

/-- Modelled from the spec: `engine.put(key, value)` — sorted insert,
replacing any existing entry for the key. -/
def enginePut : Engine → Bytes → Bytes → Engine
  | [], k, v => [(k, v)]
  | (k', v') :: t, k, v =>
    if bltB k k' then (k, v) :: (k', v') :: t
    else if k = k' then (k, v) :: t
    else (k', v') :: enginePut t k v

/-- Modelled from the spec: `engine.delete(key)`. -/
def engineDelete (e : Engine) (k : Bytes) : Engine :=
  e.filter (fun kv => kv.1 ≠ k)

/-- Modelled from the spec: `engine.get(key)`. -/
def engineFind (e : Engine) (k : Bytes) : Option Bytes :=
  (e.find? (fun kv => kv.1 == k)).map (·.2)

/-- Modelled from the spec: `engine.iter(start, reverse=False)` — entries
with key `>= start` in ascending order. -/
def engineIterF (e : Engine) (start : Bytes) : Engine :=
  e.filter (fun kv => bleB start kv.1)

/-- Modelled from the spec: `engine.iter(start, reverse=True)` — entries
with key `<= start` in descending order, including `start` if present. -/
def engineIterR (e : Engine) (start : Bytes) : Engine :=
  (e.filter (fun kv => bleB kv.1 start)).reverse

/-- One write issued to the engine (or transaction handle). -/
inductive EOp where
  | put : Bytes → Bytes → EOp
  | del : Bytes → EOp
deriving DecidableEq, Repr

/-- Apply a trace of writes to an engine state, in order. -/
def applyOps (e : Engine) : List EOp → Engine
  | [] => e
  | .put k v :: rest => applyOps (enginePut e k v) rest
  | .del k :: rest => applyOps (engineDelete e k) rest

/-! ### Collection data model -/

/-- Result of a user index function (src/centidb/centidb.py:617-623 treats a
non-list return as a one-element list; a returned primitive or tuple is
already tuplized to a `KeyTup` here, as `keycoder.packs` would do). -/
inductive IdxRet where
  | one : KeyTup → IdxRet
  | many : List KeyTup → IdxRet

/-- The `lst if type(lst) is list else [lst]` normalisation of
`Collection._index_keys`. -/
def normalize : IdxRet → List KeyTup
  | .one t => [t]
  | .many l => l

/-- One registered index: its store-assigned numeric idx and user function. -/
structure IdxSpec (V : Type) where
  idx : Nat
  func : V → IdxRet

/-- Static configuration of a `Collection` (store prefix is the empty
string, as in `Store(engine)` with the default `prefix=''`).  The value
encoder is a pair of functions (the generic object serializer is external;
each theorem's context supplies a concrete injective one), the packer is
fixed to `PLAIN_PACKER` whose registry prefix byte is `packInt 3 = [9]`,
and `vTruthy` models Python truthiness of a record value. -/
structure Ctx (V : Type) where
  collIdx : Nat
  vPack : V → Bytes
  vUnpack : Bytes → Option V
  keyFunc : V → KeyTup
  derivedKeys : Bool
  blindC : Bool
  vTruthy : V → Bool
  indices : List (IdxSpec V)

/-- The collection's byte prefix `store.prefix + keycoder.pack_int(idx)`. -/
def cPfx {V : Type} (c : Ctx V) : Bytes := packInt c.collIdx

/-- An index's byte prefix `store.prefix + keycoder.pack_int(idx)`. -/
def iPfx (j : Nat) : Bytes := packInt j

/-- The engine key of an index entry:
`keycoder.packs(index.prefix, [idx_key, key])`. -/
def idxEntryKey (j : Nat) (t : KeyTup) (key : KeyTup) : Bytes :=
  iPfx j ++ encTup t ++ encTup key

/-- Embeds `Collection._index_keys` (src/centidb/centidb.py:617-623). -/
def indexKeysOf {V : Type} (c : Ctx V) (key : KeyTup) (obj : V) : List Bytes :=
  (c.indices.map (fun s => (normalize (s.func obj)).map
    (fun t => idxEntryKey s.idx t key))).flatten

/-- The physical engine key of a single record:
`keycoder.packs(self.prefix, obj_key)`. -/
def physKeyOf {V : Type} (c : Ctx V) (key : KeyTup) : Bytes :=
  cPfx c ++ encTup key

/-- The physical value of a single record:
`packer_prefix + packer.pack(encoder.pack(data))` with `PLAIN_PACKER`. -/
def valBytesOf {V : Type} (c : Ctx V) (v : V) : Bytes :=
  9 :: c.vPack v

/-- Embeds the `Record` class (src/centidb/centidb.py:311-358); the unused
`txn_id` field is omitted, and Python's `rec.coll is self` identity test
becomes the flag `collIsSelf`. -/
structure Rec (V : Type) where
  data : V
  key : Option KeyTup
  batch : Bool
  indexKeys : Option (List Bytes)
  collIsSelf : Bool

/-- One logical record yielded by iteration: `(batch, key, data)`. -/
abbrev Item := Bool × KeyTup × Bytes

/-- A stream element: a yielded item, or the Python exception that killed
the generator (nothing follows an error element). -/
abbrev XItem := Except String Item

/-- Embeds `Collection._decompress` (src/centidb/centidb.py:613-615):
look up the packer by the leading prefix byte and unpack the rest.  Only
`PLAIN_PACKER` (prefix byte 9, identity) is exercised by this development;
the other registered packers are external encoders. -/
def decompress (s : Bytes) : Except String Bytes :=
  match s with
  | [] => .error "IndexError: string index out of range"
  | b :: rest =>
    if b = 9 then .ok rest else .error "ValueError: Missing encoder"

/-- Slice `offsets[i] .. offsets[i+1]` out of the decompressed
concatenation, `None` when the offset array is too short (Python's
IndexError). -/
def sliceAt (offsets : List Nat) (data : Bytes) (i : Nat) : Option Bytes :=
  match offsets.get? i, offsets.get? (i + 1) with
  | some a, some b => some ((data.drop a).take (b - a))
  | _, _ => none

/-- Yield the members of a decoded batch at the given index order
(`keysF` is the key list in forward logical order). -/
def batchYield (keysF : List KeyTup) (offsets : List Nat) (data : Bytes) :
    List Nat → List XItem
  | [] => []
  | i :: is =>
    match keysF.get? i, sliceAt offsets data i with
    | some k, some d => .ok (true, k, d) :: batchYield keysF offsets data is
    | _, _ => [.error "IndexError: list index out of range"]

/-- The `for key, value in it` loop of `Collection._logical_iter`
(src/centidb/centidb.py:521-553): stop at the first key that does not
decode under the collection prefix; yield single records directly; explode
batch records, walking the offsets forward (reverse: backward) against the
physically-reversed key list. -/
def logiLoop {V : Type} (c : Ctx V) : Engine → Bool → List XItem
  | [], _ => []
  | (k, v) :: rest, rev =>
    match unpacks (cPfx c) k with
    | [] => []
    | [key] =>
      match decompress v with
      | .error e => [.error e]
      | .ok d => .ok (false, key, d) :: logiLoop c rest rev
    | keys =>
      match decode_offsets v with
      | none => [.error "ValueError: bad varint"]
      | some (offsets, dstart) =>
        match decompress (v.drop dstart) with
        | .error e => [.error e]
        | .ok data =>
          let keysF := keys.reverse
          let idxs := if rev then (List.range keys.length).reverse
                      else List.range keys.length
          batchYield keysF offsets data idxs ++ logiLoop c rest rev

/-- Embeds `Collection._logical_iter` (src/centidb/centidb.py:521-553): a
first physical entry lacking the collection prefix is discarded (the
reverse-seek artifact); everything else is handled by `logiLoop`. -/
def logicalIter {V : Type} (c : Ctx V) (entries : Engine) (rev : Bool) :
    List XItem :=
  match entries with
  | [] => []
  | (k, v) :: rest =>
    if hasPfx (cPfx c) k then logiLoop c ((k, v) :: rest) rev
    else logiLoop c rest rev

/-- `itertools.dropwhile` over a stream whose elements may raise. -/
def dropWhileE (p : Item → Bool) : List XItem → List XItem
  | [] => []
  | .error e :: _ => [.error e]
  | .ok i :: rest => if p i then dropWhileE p rest else .ok i :: rest

/-- `itertools.takewhile` over a stream whose elements may raise. -/
def takeWhileE (p : Item → Bool) : List XItem → List XItem
  | [] => []
  | .error e :: _ => [.error e]
  | .ok i :: rest => if p i then .ok i :: takeWhileE p rest else []

/-- Apply an optional predicate stage of `Collection._iter`. -/
def stageP (f : (Item → Bool) → List XItem → List XItem)
    (p : Option (KeyTup → Bool)) (s : List XItem) : List XItem :=
  match p with
  | none => s
  | some q => f (fun it => q it.2.1) s

/-- Apply an optional `itertools.islice` stage. -/
def stageTake {α : Type} (n : Option Nat) (s : List α) : List α :=
  match n with
  | none => s
  | some m => s.take m

/-- Build the optional bound predicate `t and pred` of `Collection._iter`:
`None` and the empty tuple are falsy and disable the stage. -/
def mkPredO (t : Option KeyTup) (f : KeyTup → KeyTup → Bool) :
    Option (KeyTup → Bool) :=
  match t with
  | none => none
  | some h => if h.isEmpty then none else some (f h)

/-- Embeds `Collection._iter` (src/centidb/centidb.py:569-611).  The bound
predicates compare decoded key tuples; `hi.__ge__ k` is `hi ≥ k`, i.e.
`!(bltB hi k)`, and so on.  Stage order follows the source: engine
iterator, physical islice, `_logical_iter`, logical islice, dropwhile
startpred, takewhile endpred. -/
def collIter {V : Type} (c : Ctx V) (e : Engine) (txn : Option Engine)
    (keyA lo hi : Option KeyTup) (rev : Bool) (maxN maxPhys : Option Nat)
    (incl : Bool) : List XItem :=
  let arg1 : Option KeyTup × Option KeyTup × Bool :=
    match keyA with
    | some k => if rev then (lo, some k, true) else (some k, hi, incl)
    | none => (lo, hi, incl)
  let lo' := arg1.1
  let hi' := arg1.2.1
  let incl1 := arg1.2.2
  let lokey := match lo' with
    | none => cPfx c
    | some l => cPfx c ++ encTup l
  let arg2 : Bytes × Bool :=
    match hi' with
    | none => (next_greater (cPfx c), false)
    | some h => (cPfx c ++ encTup h, incl1)
  let hikey := arg2.1
  let incl2 := arg2.2
  let src := txn.getD e
  if rev then
    let startpred := mkPredO hi'
      (fun h k => if incl2 then bltB h k else bleB h k)
    let endpred := mkPredO lo' (fun l k => !(bltB l k))
    stageP takeWhileE endpred (stageP dropWhileE startpred
      (stageTake maxN (logicalIter c (stageTake maxPhys (engineIterR src hikey)) true)))
  else
    let endpred := mkPredO hi'
      (fun h k => if incl2 then !(bltB h k) else bltB k h)
    stageP takeWhileE endpred
      (stageTake maxN (logicalIter c (stageTake maxPhys (engineIterF src lokey)) false))

/-- A full logical scan of a collection, projected to `(key, data)` pairs:
`_iter(txn=None, key=None, lo=None, hi=None, reverse, max_=None,
include=False, max_phys=None)`. -/
def collScan {V : Type} (c : Ctx V) (e : Engine) (txn : Option Engine)
    (rev : Bool) : List (Except String (KeyTup × Bytes)) :=
  (collIter c e txn none none none rev none none false).map
    (fun x => x.map (fun it => (it.2.1, it.2.2)))

/-- The `tup = next(it, None)` step of `Collection.get`
(src/centidb/centidb.py:666-686): `_iter(txn, None, key, key, False, None,
True, None)` and take the first yielded item. -/
def collGetCore {V : Type} (c : Ctx V) (e : Engine) (txn : Option Engine)
    (key : KeyTup) : Except String (Option Item) :=
  match collIter c e txn none (some key) (some key) false none none true with
  | [] => .ok none
  | .error msg :: _ => .error msg
  | .ok it :: _ => .ok (some it)

/-- Embeds `Collection.get(key, default, rec=True, txn)`: on a hit, wrap
the decoded value in a `Record` carrying the requested key, the batch flag
and the freshly computed index keys; on a miss, wrap `default` if given. -/
def collGetRec {V : Type} (c : Ctx V) (e : Engine) (txn : Option Engine)
    (key : KeyTup) (default : Option V) : Except String (Option (Rec V)) := do
  let t ← collGetCore c e txn key
  match t with
  | some (b, _, d) =>
    match c.vUnpack d with
    | none => .error "ValueError: encoder unpack failed"
    | some v => .ok (some ⟨v, some key, b, some (indexKeysOf c key v), true⟩)
  | none =>
    match default with
    | some dv => .ok (some ⟨dv, none, false, none, true⟩)
    | none => .ok none

/-- Embeds `Collection.get(key, default, rec=False, txn)`: just the value. -/
def collGetVal {V : Type} (c : Ctx V) (e : Engine) (txn : Option Engine)
    (key : KeyTup) (default : Option V) : Except String (Option V) := do
  let t ← collGetCore c e txn key
  match t with
  | some (_, _, d) =>
    match c.vUnpack d with
    | none => .error "ValueError: encoder unpack failed"
    | some v => .ok (some v)
  | none => .ok default

/-- Embeds `Collection._reassign_key` (src/centidb/centidb.py:835-840);
the transactional-counter variant of the key function is subsumed into
`keyFunc` (the contexts used here always configure a key function). -/
def reassignKey {V : Type} (c : Ctx V) (rec : Rec V) : KeyTup :=
  if truthyK rec.key && !c.derivedKeys then rec.key.getD []
  else c.keyFunc rec.data

/-- Embeds `Collection.delete` (src/centidb/centidb.py:946-969) as the
trace of engine writes it issues plus its return value.  A key argument is
first resolved through `get(obj, rec=True)` (the source does not forward
`txn` to that read).  A record that was loaded from a batch goes through
`Collection._split_batch` (src/centidb/centidb.py:818-833), whose body
begins with `assert False` and therefore raises unconditionally. -/
def deleteTrace {V : Type} (c : Ctx V) (e : Engine) (obj : KeyTup ⊕ Rec V) :
    Except String (List EOp × Option (Rec V)) := do
  let r ← match obj with
    | .inr rc => pure (some rc)
    | .inl k => collGetRec c e none k none
  match r with
  | some rc =>
    match rc.key with
    | some k =>
      if k.isEmpty then .ok ([], none)
      else if rc.batch then .error "AssertionError"
      else .ok (EOp.del (physKeyOf c k) :: (rc.indexKeys.getD []).map EOp.del,
                some { rc with key := none, batch := false, indexKeys := none })
    | none => .ok ([], none)
  | none => .ok ([], none)

/-- Embeds `Collection.put` (src/centidb/centidb.py:856-924) as the trace
of engine writes it issues plus the updated record.  A non-`Record`
argument is wrapped (`Record(self, rec)`); `key or self._reassign_key(...)`
treats an empty tuple as falsy; a record previously loaded from a batch
routes into `_split_batch`'s unconditional `assert False`; the no-`txn`
`self.delete(obj_key)` purge runs when indices exist and neither `blind`
flag is set. -/
def putTrace {V : Type} (c : Ctx V) (e : Engine) (rec : V ⊕ Rec V)
    (key : Option KeyTup) (blind : Bool) :
    Except String (List EOp × Rec V) := do
  let rc : Rec V := match rec with
    | .inl v => ⟨v, none, false, none, true⟩
    | .inr r => r
  let objKey := match key with
    | some k => if k.isEmpty then reassignKey c rc else k
    | none => reassignKey c rc
  let indexKeys := indexKeysOf c objKey rc.data
  let pre ←
    if rc.collIsSelf && truthyK rc.key then
      if rc.batch then (.error "AssertionError" : Except String (List EOp))
      else
        let d1 := if rc.key ≠ some objKey
          then [EOp.del (cPfx c ++ encTup (rc.key.getD []))] else []
        let d2 := if some indexKeys ≠ rc.indexKeys
          then (rc.indexKeys.getD []).map EOp.del else []
        pure (d1 ++ d2)
    else if !c.indices.isEmpty && !(blind || c.blindC) then do
      let (dops, _) ← deleteTrace c e (.inl objKey)
      pure dops
    else pure []
  let ops := pre ++ EOp.put (physKeyOf c objKey) (valBytesOf c rc.data)
    :: indexKeys.map (fun k => EOp.put k [])
  .ok (ops, { rc with key := some objKey, indexKeys := some indexKeys,
                      collIsSelf := true })

/-- `Collection.put` including its effect on the engine state. -/
def putM {V : Type} (c : Ctx V) (e : Engine) (rec : V ⊕ Rec V)
    (key : Option KeyTup) (blind : Bool) :
    Except String (Engine × Rec V) := do
  let (ops, r) ← putTrace c e rec key blind
  .ok (applyOps e ops, r)

/-- `Collection.delete` including its effect on the engine state. -/
def deleteM {V : Type} (c : Ctx V) (e : Engine) (obj : KeyTup ⊕ Rec V) :
    Except String (Engine × Option (Rec V)) := do
  let (ops, r) ← deleteTrace c e obj
  .ok (applyOps e ops, r)

/-- Embeds `Collection._prepare_batch` (src/centidb/centidb.py:799-816)
with `PLAIN_PACKER` (registry prefix byte 9, identity `pack`): the physical
key packs the reversed key list; a single item keeps the single-record
layout; otherwise the value is the record count, one length varint per
item in forward order, the packer prefix byte, and the packed forward
concatenation of the raw values. -/
def Collection.prepare_batch {V : Type} (c : Ctx V)
    (items : List (KeyTup × Bytes)) : Bytes × Bytes :=
  let keytups := (items.map Prod.fst).reverse
  let phys := packsL (cPfx c) keytups
  let value :=
    if items.length = 1 then 9 :: (items.headD ([], [])).2
    else packInt items.length
      ++ (items.map (fun it => packInt it.2.length)).flatten
      ++ 9 :: (items.map Prod.snd).flatten
  (phys, value)

/-- Embeds `Collection._write_batch` (src/centidb/centidb.py:793-797). -/
def Collection.write_batch {V : Type} (c : Ctx V)
    (items : List (KeyTup × Bytes)) : List EOp :=
  if items.isEmpty then []
  else [EOp.put (Collection.prepare_batch c items).1
    (Collection.prepare_batch c items).2]

/-- The `for batch, key, data in it` loop of `Collection.batch`
(src/centidb/centidb.py:772-790), accumulating the trace of engine writes
and the in-progress `items` group.  A pre-existing batch under
`preserve=True` flushes the group; otherwise the single record is deleted
and appended, then the `max_bytes` re-encode check, the `max_recs` check
and the grouper check decide whether to flush. -/
def batchLoop {V : Type} (c : Ctx V) (maxRecs maxBytes : Option Nat)
    (grouper : Option (V → Nat)) (preserve : Bool) :
    List XItem → List EOp → List (KeyTup × Bytes) → Option Nat →
    Except String (List EOp × List (KeyTup × Bytes))
  | [], ops, items, _ => .ok (ops, items)
  | .error msg :: _, _, _, _ => .error msg
  | .ok (bFlag, key, data) :: rest, ops, items, groupval =>
    if preserve && bFlag then
      batchLoop c maxRecs maxBytes grouper preserve rest
        (ops ++ Collection.write_batch c items) [] groupval
    else
      let ops1 := ops ++ [EOp.del (physKeyOf c key)]
      let items1 := items ++ [(key, data)]
      let st2 : List EOp × List (KeyTup × Bytes) :=
        match maxBytes with
        | none => (ops1, items1)
        | some mb =>
          if (Collection.prepare_batch c items1).2.length > mb then
            (ops1 ++ Collection.write_batch c items1.dropLast, [(key, data)])
          else (ops1, items1)
      let ops2 := st2.1
      let items2 := st2.2
      let done := match maxRecs with
        | some r => items2.length == r
        | none => false
      match grouper, done with
      | some g, false =>
        match c.vUnpack data with
        | none => .error "ValueError: encoder unpack failed"
        | some v =>
          if (some (g v) : Option Nat) ≠ groupval then
            batchLoop c maxRecs maxBytes grouper preserve rest
              (ops2 ++ Collection.write_batch c items2) [] (some (g v))
          else
            batchLoop c maxRecs maxBytes grouper preserve rest
              ops2 items2 (some (g v))
      | _, _ =>
        if done then
          batchLoop c maxRecs maxBytes grouper preserve rest
            (ops2 ++ Collection.write_batch c items2) [] groupval
        else
          batchLoop c maxRecs maxBytes grouper preserve rest
            ops2 items2 groupval

/-- Embeds `Collection.batch` (src/centidb/centidb.py:688-791).  The
record stream is the snapshot produced by
`_iter(txn, None, lo, hi, False, None, True, max_phys)`.  The Python
function body ends without a `return` statement, so the call evaluates to
`None` — the second component models that return value, and is `none`
rather than the `(found, made, last_key)` triple its docstring promises. -/
def Collection.batch {V : Type} (c : Ctx V) (e : Engine)
    (lo hi : Option KeyTup) (maxRecs maxBytes : Option Nat)
    (preserve : Bool) (maxPhys : Option Nat) (grouper : Option (V → Nat)) :
    Except String (Engine × Option (Nat × Nat × Option KeyTup)) :=
  if maxBytes.isNone && maxRecs.isNone then
    .error "AssertionError: max_bytes and/or max_recs is required."
  else do
    let stream := collIter c e none none lo hi false none maxPhys true
    let (ops, items) ← batchLoop c maxRecs maxBytes grouper preserve
      stream [] [] none
    .ok (applyOps e (ops ++ Collection.write_batch c items), none)

/-- Embeds `Collection.gets` (src/centidb/centidb.py:652-654).  The source
is `return (self.get(x, default, rec, txn) for k in keys)`: the loop binds
`k` but the body evaluates the unbound global name `x`, so demanding the
first element of a non-empty argument raises `NameError` and kills the
generator; an empty argument yields nothing. -/
def Collection.gets {V : Type} (c : Ctx V) (e : Engine) (keys : List KeyTup)
    (default : Option V) : List (Except String (Option V)) :=
  match keys with
  | [] => []
  | _ :: _ => [.error "NameError: name x is not defined"]

/-- Modelled from the spec: the behaviour `Collection.gets` is specified to
have — one `get(k, default, rec, txn)` per element `k` of `keys`, in input
order. -/
def Collection.getsSpec {V : Type} (c : Ctx V) (e : Engine)
    (keys : List KeyTup) (default : Option V) :
    List (Except String (Option V)) :=
  keys.map (fun k => collGetVal c e none k default)

/-- The decode loop at the bottom of `Index._iter`
(src/centidb/centidb.py:224-228): decode each raw key under the index
prefix, stopping at the first that does not decode. -/
def idxDecodeLoop (pfx : Bytes) : Engine → List (List KeyTup)
  | [] => []
  | (k, _) :: rest =>
    match unpacks pfx k with
    | [] => []
    | dk => dk :: idxDecodeLoop pfx rest

/-- Embeds `Index._iter` (src/centidb/centidb.py:190-228).  The bound
checks `assert hi` model the `next_greater` asserts.  The takewhile
predicates are bound rich-comparison methods of a *bytestring* applied to
the raw `(key, value)` pair yielded by the engine iterator; in CPython 2 a
directly called bound rich comparison such as `hi.__gt__((key, value))`
returns `NotImplemented` — a truthy object, since the slot wrapper
performs no operator fallback — so `itertools.takewhile` never truncates
in either direction.  Iteration is therefore bounded only by the engine
iterator's start key and by the decode loop, which breaks at the first
key that does not decode under the index prefix. -/
def Index.iterS {V : Type} (c : Ctx V) (sIdx : Nat) (e : Engine)
    (txn : Option Engine) (keyA lo hi : Option KeyTup) (rev : Bool)
    (maxN : Option Nat) (incl : Bool) :
    Except String (List (List KeyTup)) := do
  let pfx := iPfx sIdx
  let loB0 := match lo with
    | none => pfx
    | some l => pfx ++ encTup l
  let hiB0 ← match hi with
    | none => pure (next_greater pfx)
    | some h =>
      let g := next_greater (pfx ++ encTup h)
      if g.isEmpty then (.error "AssertionError" : Except String Bytes)
      else pure g
  let bnds ← match keyA with
    | none => pure (loB0, hiB0)
    | some k =>
      if rev then
        let g := next_greater (pfx ++ encTup k)
        if g.isEmpty then (.error "AssertionError" : Except String (Bytes × Bytes))
        else pure (loB0, g)
      else pure (pfx ++ encTup k, hiB0)
  let src := txn.getD e
  let raw := if rev then engineIterR src bnds.2 else engineIterF src bnds.1
  pure (idxDecodeLoop pfx (stageTake maxN raw))

/-- Embeds `Index.has` (src/centidb/centidb.py:290-295):
`tup, key = next(self.pairs(x), (None, None)); return tup == x`.  The
`txn` argument is accepted but `pairs` is invoked without it. -/
def Index.has {V : Type} (c : Ctx V) (sIdx : Nat) (e : Engine)
    (txn : Option Engine) (x : KeyTup) : Except String Bool := do
  let ks ← Index.iterS c sIdx e none (some x) none none false none false
  match ks with
  | [] => pure false
  | dk :: _ =>
    match dk with
    | [t, _] => pure (t == x)
    | _ => .error "ValueError: need more than one value to unpack"

/-- The resolution loop of `Index.items` (src/centidb/centidb.py:259-270):
each index pair resolves its primary key through `Collection.get`; a falsy
result (stale entry) is warned about and skipped. -/
def itemsResolve {V : Type} (c : Ctx V) (e : Engine) (txn : Option Engine) :
    List (List KeyTup) → Except String (List (KeyTup × V))
  | [] => pure []
  | dk :: rest => do
    match dk with
    | [_, k] =>
      let obj ← collGetVal c e txn k none
      let restR ← itemsResolve c e txn rest
      match obj with
      | some v => if c.vTruthy v then pure ((k, v) :: restR) else pure restR
      | none => pure restR
    | _ => .error "ValueError: need more than one value to unpack"

/-- Embeds `Index.get` (src/centidb/centidb.py:297-305) in its
value-returning form: the first element of
`self.items(lo=x, hi=x, include=False)`, else `default`.  The `txn`
argument is accepted but `items` is invoked without it. -/
def Index.get {V : Type} (c : Ctx V) (sIdx : Nat) (e : Engine)
    (txn : Option Engine) (x : KeyTup) (default : Option V) :
    Except String (Option V) := do
  let ks ← Index.iterS c sIdx e none none (some x) (some x) false none false
  let its ← itemsResolve c e none ks
  match its with
  | (_, v) :: _ => pure (some v)
  | [] => pure default

/-! ### Store counters (src/centidb/centidb.py:1065-1090) -/

/-- Injective coding of a Python integer as a key element (the external
codec's signed-integer kinds are abstracted to one `Nat` element). -/
def zEnc (z : Int) : Nat :=
  if 0 ≤ z then 2 * z.toNat else 2 * (-z).toNat - 1

/-- Inverse of `zEnc`. -/
def zDec (n : Nat) : Int :=
  if n % 2 = 0 then ((n / 2 : Nat) : Int) else -(((n + 1) / 2 : Nat) : Int)

/-- The `'\x00counters'` metadata collection (src/centidb/centidb.py:1024):
fixed idx 1, `KEY_ENCODER` values `(name, value)`, `key_func=ITEMGETTER_0`,
no indices.  Counter names are abstracted to `Nat`. -/
def counterCtx : Ctx (Nat × Int) where
  collIdx := 1
  vPack := fun v => encTup [v.1, zEnc v.2]
  vUnpack := fun b =>
    match parseTup b.length b with
    | some ([n, cz], []) => some (n, zDec cz)
    | _ => none
  keyFunc := fun v => [v.1]
  derivedKeys := false
  blindC := false
  vTruthy := fun _ => true
  indices := []

/-- Embeds `Store.count` (src/centidb/centidb.py:1065-1090): read the
counter record with default `(name, init)`, return its value, and when
`n` is non-zero write back `(name, value + n)` through the counter
collection's `put`. -/
def Store.count (e : Engine) (name : Nat) (n : Int) (init : Int) :
    Except String (Int × Engine) := do
  let r ← collGetRec counterCtx e none [name] (some (name, init))
  match r with
  | none => .error "unreachable"
  | some rc =>
    let val := rc.data.2
    if n ≠ 0 then do
      let rc' := { rc with data := (name, val + n) }
      let (eng, _) ← putM counterCtx e (.inr rc') none false
      .ok (val, eng)
    else .ok (val, e)

/-- A sequence of `Store.count(name, n=d)` calls, returning the list of
returned values. -/
def runCounts (e : Engine) (name : Nat) : List Int →
    Except String (List Int × Engine)
  | [] => .ok ([], e)
  | d :: ds => do
    let (r, e') ← Store.count e name d 1
    let (rs, e'') ← runCounts e' name ds
    .ok (r :: rs, e'')

/-- The stored value of a counter as it sits in the engine. -/
def liveCounterVal (e : Engine) (name : Nat) : Option Int :=
  match engineFind e (physKeyOf counterCtx [name]) with
  | some (9 :: rest) => (counterCtx.vUnpack rest).map (·.2)
  | _ => none

/-! ### Association-list bookkeeping for abstract states -/

/-- Lookup in an abstract record map. -/
def lookupA {V : Type} (m : List (KeyTup × V)) (K : KeyTup) : Option V :=
  (m.find? (fun p => p.1 == K)).map (·.2)

/-- Remove a key from an abstract record map. -/
def mErase {V : Type} (m : List (KeyTup × V)) (K : KeyTup) :
    List (KeyTup × V) :=
  m.filter (fun p => !(p.1 == K))

/-- Insert (or overwrite) a key in an abstract record map. -/
def mInsert {V : Type} (m : List (KeyTup × V)) (K : KeyTup) (v : V) :
    List (KeyTup × V) :=
  (K, v) :: mErase m K

/-! ### Claim-level predicates -/

/-- Well-formedness of a collection configuration: numeric indices stay in
the single-byte varint range and are mutually distinct, the value encoder
round-trips, and the key function never produces the (falsy) empty tuple. -/
def CtxWF {V : Type} (c : Ctx V) : Prop :=
  c.collIdx < 240 ∧
  (∀ s ∈ c.indices, s.idx < 240 ∧ s.idx ≠ c.collIdx) ∧
  (c.indices.map (·.idx)).Nodup ∧
  (∀ v, c.vUnpack (c.vPack v) = some v) ∧
  (∀ v, c.keyFunc v ≠ []) ∧
  c.blindC = false

/-- One user call in a `put`/`delete` call sequence: `put` of a plain
(non-`Record`) value with an optional `key=` argument and a `blind` flag,
or `delete` by key. -/
inductive Act (V : Type) where
  | putA : V → Option KeyTup → Bool → Act V
  | delA : KeyTup → Act V

/-- Run a sequence of `Collection.put`/`Collection.delete` calls. -/
def runActs {V : Type} (c : Ctx V) : Engine → List (Act V) →
    Except String Engine
  | e, [] => .ok e
  | e, .putA v key bl :: rest => do
    let (e', _) ← putM c e (.inl v) key bl
    runActs c e' rest
  | e, .delA k :: rest => do
    let (e', _) ← deleteM c e (.inl k)
    runActs c e' rest

/-- Constraint on a call sequence: every `put` passes `blind=False`.  The
key arguments are unconstrained. -/
def actOK {V : Type} : Act V → Prop
  | .putA _ _ bl => bl = false
  | .delA _ => True

/-- The key a plain-value `put` stores under: `key or
self._reassign_key(...)` — the explicit key when truthy, otherwise the
key function applied to the value (a fresh `Record` has no old key, so
`_reassign_key` always takes the key-function path). -/
def objKeyOf {V : Type} (c : Ctx V) (v : V) : Option KeyTup → KeyTup
  | some k => if k.isEmpty then c.keyFunc v else k
  | none => c.keyFunc v

/-- The current value of the live record stored under key `K`, decoded the
way the collection would decode it. -/
def liveVal {V : Type} (c : Ctx V) (e : Engine) (K : KeyTup) : Option V :=
  match engineFind e (physKeyOf c K) with
  | some (9 :: rest) => c.vUnpack rest
  | _ => none

/-- The engine keys stored under index prefix `j` whose decoded primary
key equals `K`. -/
def idxEntriesFor (j : Nat) (e : Engine) (K : KeyTup) : List Bytes :=
  (e.map Prod.fst).filter
    (fun k => hasPfx (iPfx j) k && ((unpacks (iPfx j) k).getLast? == some K))

/-- The index entries a record `(K, v)` should contribute to index `s`:
`{ pack(t ‖ K) : t ∈ normalize(s.func v) }`. -/
def canonEntries {V : Type} (s : IdxSpec V) (K : KeyTup) (v : V) :
    List Bytes :=
  (normalize (s.func v)).map (fun t => idxEntryKey s.idx t K)

/-- The index-consistency property of the claim: for every registered
index and live record `(K, v)`, the engine keys under the index prefix
that decode to primary key `K` are exactly the canonical entries of `v`. -/
def indexConsistent {V : Type} (c : Ctx V) (e : Engine) : Prop :=
  ∀ s ∈ c.indices, ∀ K v, liveVal c e K = some v →
    ∀ k : Bytes, k ∈ idxEntriesFor s.idx e K ↔ k ∈ canonEntries s K v

/-- Characterisation of every entry of an engine reachable from empty by
`put`/`delete`: a canonically shaped physical record of a live record, or
a canonically shaped index entry of a live record. -/
def EntrySpec {V : Type} (c : Ctx V) (m : List (KeyTup × V))
    (a b : Bytes) : Prop :=
  (∃ K v, lookupA m K = some v ∧ a = physKeyOf c K ∧ b = valBytesOf c v) ∨
  (∃ s ∈ c.indices, ∃ K v t, lookupA m K = some v ∧
    t ∈ normalize (s.func v) ∧ a = idxEntryKey s.idx t K ∧ b = [])

/-- The inductive invariant tying an engine state to the abstract map of
live records. -/
def CleanState {V : Type} (c : Ctx V) (e : Engine)
    (m : List (KeyTup × V)) : Prop :=
  ESorted e ∧ (m.map Prod.fst).Nodup ∧ (∀ p ∈ m, p.1 ≠ []) ∧
  (∀ a b, (a, b) ∈ e ↔ EntrySpec c m a b)

/-- The counter region of an engine, tied to an abstract name-to-value
map: the canonical counter records are present, and every entry whose key
begins with the counter collection's prefix byte is such a record. -/
def CounterClean (e : Engine) (m : List (Nat × Int)) : Prop :=
  ESorted e ∧ (m.map Prod.fst).Nodup ∧
  (∀ p ∈ m, (physKeyOf counterCtx [p.1],
             valBytesOf counterCtx (p.1, p.2)) ∈ e) ∧
  (∀ kb ∈ e, kb.1.head? = some 7 → ∃ nm z, (nm, z) ∈ m ∧
    kb = (physKeyOf counterCtx [nm], valBytesOf counterCtx (nm, z)))

/-- Lookup in an abstract counter map. -/
def lookupCtr (m : List (Nat × Int)) (name : Nat) : Option Int :=
  (m.find? (fun p => p.1 == name)).map (·.2)

/-- Store a value in an abstract counter map. -/
def ctrStore (m : List (Nat × Int)) (name : Nat) (z : Int) :
    List (Nat × Int) :=
  (name, z) :: m.filter (fun p => !(p.1 == name))

/-- The mutation class of one engine write, for the ordering claim:
1 = physical-record deletion, 2 = index-entry deletion, 3 =
physical-record write, 4 = index-entry write. -/
def opClass {V : Type} (c : Ctx V) : EOp → Nat
  | .del k => if hasPfx (cPfx c) k then 1 else 2
  | .put k _ => if hasPfx (cPfx c) k then 3 else 4

/-! ### Concrete instances for counterexamples and witnesses -/

/-- A small concrete collection over `Nat` values: collection idx 10, one
index (idx 11) mapping value `v` to the single tuple `(v,)` via a
list-valued index function. -/
def ctx0 : Ctx Nat where
  collIdx := 10
  vPack := fun v => [v]
  vUnpack := fun b => b.head?
  keyFunc := fun v => [v]
  derivedKeys := false
  blindC := false
  vTruthy := fun _ => true
  indices := [⟨11, fun v => .many [[v]]⟩]

/-- The two-put sequence refuting the unrestricted index-consistency
claim: a normal put of value 1 at key `(5,)`, then a `blind=True` put of
value 2 at the same key. -/
def acts0 : List (Act Nat) :=
  [.putA 1 (some [5]) false, .putA 2 (some [5]) true]

/-- Two plain non-blind puts: value 1 at key `(5,)`, value 2 at key
`(6,)`. -/
def acts1 : List (Act Nat) :=
  [.putA 1 (some [5]) false, .putA 2 (some [6]) false]

/-- The engine `acts1` leaves behind: both physical records and their two
index entries. -/
def e2r : Engine :=
  [([16, 3, 3, 3, 3, 3, 2, 1], [9, 1]),
   ([16, 3, 3, 3, 3, 3, 3, 2, 1], [9, 2]),
   ([17, 3, 2, 1, 3, 3, 3, 3, 3, 2, 1], []),
   ([17, 3, 3, 2, 1, 3, 3, 3, 3, 3, 3, 2, 1], [])]

/-- The `Record` that `get((5,), rec=True)` returns on `e2r`. -/
def rec5 : Rec Nat :=
  ⟨1, some [5], false, some [[17, 3, 2, 1, 3, 3, 3, 3, 3, 2, 1]], true⟩

/-- The engine left by `put(rec5, key=(6,), blind=False)` on `e2r`: the
record moved to key `(6,)`, but the index entry of the value 2 that was
live at `(6,)` (its primary key decodes to `(6,)`, its tuple is `(2,)`)
survives as a stale entry. -/
def e3r : Engine :=
  [([16, 3, 3, 3, 3, 3, 3, 2, 1], [9, 1]),
   ([17, 3, 2, 1, 3, 3, 3, 3, 3, 3, 2, 1], []),
   ([17, 3, 3, 2, 1, 3, 3, 3, 3, 3, 3, 2, 1], [])]

/-- The engine state `acts0` leaves behind: the physical record of key
`(5,)` holding value 2, the stale index entry derived from the overwritten
value 1, and the index entry of the current value 2. -/
def e0 : Engine :=
  [([16, 3, 3, 3, 3, 3, 2, 1], [9, 2]),
   ([17, 3, 2, 1, 3, 3, 3, 3, 3, 2, 1], []),
   ([17, 3, 3, 2, 1, 3, 3, 3, 3, 3, 2, 1], [])]

/-- A concrete collection with no indices, for batch scenarios. -/
def ctx1 : Ctx Nat where
  collIdx := 10
  vPack := fun v => [v]
  vUnpack := fun b => b.head?
  keyFunc := fun v => [v]
  derivedKeys := false
  blindC := false
  vTruthy := fun _ => true
  indices := []

/-- A three-record batch written into an empty engine under `ctx1`: the
logical records `((4,), 4)`, `((5,), 5)`, `((6,), 6)` share one physical
batch entry. -/
def eBatch : Engine :=
  applyOps [] (Collection.write_batch ctx1 [([4], [4]), ([5], [5]), ([6], [6])])

/-! ## Lemmas: the byte-string order -/

theorem bltB_irrefl (x : Bytes) : bltB x x = false := by
  induction x with
  | nil => rfl
  | cons a s ih => simp [bltB, ih]

theorem bltB_trans {x y z : Bytes} (h1 : bltB x y = true)
    (h2 : bltB y z = true) : bltB x z = true := by
  induction x generalizing y z with
  | nil =>
    cases y with
    | nil => simp [bltB] at h1
    | cons b t =>
      cases z with
      | nil => simp [bltB] at h2
      | cons c u => simp [bltB]
  | cons a s ih =>
    cases y with
    | nil => simp [bltB] at h1
    | cons b t =>
      cases z with
      | nil => simp [bltB] at h2
      | cons c u =>
        simp only [bltB, Bool.or_eq_true, Bool.and_eq_true, beq_iff_eq,
          decide_eq_true_eq] at h1 h2 ⊢
        rcases h1 with h1 | ⟨rfl, h1⟩
        · rcases h2 with h2 | ⟨rfl, h2⟩
          · exact Or.inl (Nat.lt_trans h1 h2)
          · exact Or.inl h1
        · rcases h2 with h2 | ⟨rfl, h2⟩
          · exact Or.inl h2
          · exact Or.inr ⟨rfl, ih h1 h2⟩

theorem bltB_asymm {x y : Bytes} (h : bltB x y = true) : bltB y x = false := by
  by_contra hc
  have h2 : bltB y x = true := by
    cases hyx : bltB y x with
    | true => rfl
    | false => exact absurd hyx hc
  have := bltB_trans h h2
  rw [bltB_irrefl] at this
  exact Bool.false_ne_true this

theorem bltB_total (x y : Bytes) :
    x = y ∨ bltB x y = true ∨ bltB y x = true := by
  induction x generalizing y with
  | nil =>
    cases y with
    | nil => exact Or.inl rfl
    | cons b t => exact Or.inr (Or.inl (by simp [bltB]))
  | cons a s ih =>
    cases y with
    | nil => exact Or.inr (Or.inr (by simp [bltB]))
    | cons b t =>
      rcases Nat.lt_trichotomy a b with hab | rfl | hab
      · exact Or.inr (Or.inl (by simp [bltB, hab]))
      · rcases ih t with rfl | h | h
        · exact Or.inl rfl
        · exact Or.inr (Or.inl (by simp [bltB, h]))
        · exact Or.inr (Or.inr (by simp [bltB, h]))
      · exact Or.inr (Or.inr (by simp [bltB, hab]))

theorem blt_append_same (P X Y : Bytes) :
    bltB (P ++ X) (P ++ Y) = bltB X Y := by
  induction P with
  | nil => rfl
  | cons c P ih => simp [bltB, ih]

theorem blt_cons_same (c : Nat) (X Y : Bytes) :
    bltB (c :: X) (c :: Y) = bltB X Y := by
  simp [bltB]

theorem blt_head {a b : Nat} (s t : Bytes) (h : a ≠ b) :
    bltB (a :: s) (b :: t) = decide (a < b) := by
  simp [bltB, h]

theorem ble_self_append (P X : Bytes) : bleB P (P ++ X) = true := by
  have : bltB (P ++ X) P = false := by
    induction P with
    | nil => cases X <;> rfl
    | cons c P ih => simp [bltB, ih]
  simp [bleB, this]

theorem bleB_refl (x : Bytes) : bleB x x = true := by
  simp [bleB, bltB_irrefl]

theorem hasPfx_append (P X : Bytes) : hasPfx P (P ++ X) = true := by
  induction P with
  | nil => rfl
  | cons c P ih => simp [hasPfx, ih]

theorem hasPfx_head {a b : Nat} (s t : Bytes) (h : a ≠ b) :
    hasPfx (a :: s) (b :: t) = false := by
  simp [hasPfx, h]

theorem eq_of_hasPfx_single {a b : Nat} {t : Bytes}
    (h : hasPfx [a] (b :: t) = true) : a = b := by
  simpa [hasPfx] using h

/-! ## Lemmas: the modelled key codec -/

theorem encElem_zero : encElem 0 = [2] := rfl

theorem encElem_succ (n : Nat) : encElem (n + 1) = 3 :: encElem n := by
  simp [encElem, List.replicate_succ]

theorem elem_lt {a b : Nat} (X Y : Bytes) (h : a < b) :
    bltB (encElem a ++ X) (encElem b ++ Y) = true := by
  induction a generalizing b with
  | zero =>
    match b, h with
    | b + 1, _ =>
      rw [encElem_zero, encElem_succ]
      simp [bltB]
  | succ a ih =>
    match b, h with
    | b + 1, h =>
      rw [encElem_succ, encElem_succ]
      simp only [List.cons_append, blt_cons_same]
      exact ih (Nat.lt_of_succ_lt_succ h)

theorem one_lt_encElem (n : Nat) (Z X : Bytes) :
    bltB (1 :: Z) (encElem n ++ X) = true := by
  cases n with
  | zero => rw [encElem_zero]; simp [bltB]
  | succ n => rw [encElem_succ]; simp [bltB]

theorem encTup_lt {t u : KeyTup} (h : bltB t u = true) :
    bltB (encTup t) (encTup u) = true := by
  induction t generalizing u with
  | nil =>
    cases u with
    | nil => simp [bltB] at h
    | cons b r => exact one_lt_encElem b [] (encTup r)
  | cons a s ih =>
    cases u with
    | nil => simp [bltB] at h
    | cons b r =>
      simp only [bltB, Bool.or_eq_true, Bool.and_eq_true, beq_iff_eq,
        decide_eq_true_eq] at h
      rcases h with h | ⟨rfl, h⟩
      · exact elem_lt (encTup s) (encTup r) h
      · show bltB (encElem a ++ encTup s) (encElem a ++ encTup r) = true
        rw [blt_append_same]
        exact ih h

theorem parseElem_rt (n : Nat) (r : Bytes) :
    parseElem (encElem n ++ r) = some (n, r) := by
  induction n with
  | zero => rw [encElem_zero]; rfl
  | succ n ih => rw [encElem_succ]; simp [parseElem, ih]

theorem encElem_head_ne_one (n : Nat) (X : Bytes) :
    ∀ r, encElem n ++ X ≠ 1 :: r := by
  intro r h
  cases n with
  | zero => rw [encElem_zero] at h; simp at h
  | succ n => rw [encElem_succ] at h; simp at h

theorem parseTup_one (fuel : Nat) (r : Bytes) :
    parseTup fuel (1 :: r) = some ([], r) := by
  cases fuel <;> rfl

theorem parseTup_step (fuel n : Nat) (X : Bytes) :
    parseTup (fuel + 1) (encElem n ++ X) =
      match parseTup fuel X with
      | none => none
      | some (t, r') => some (n :: t, r') := by
  cases n with
  | zero =>
    rw [encElem_zero]
    show parseTup (fuel + 1) (2 :: X) = _
    rw [parseTup]
    · rw [show parseElem (2 :: X) = some (0, X) from rfl]
    all_goals (intro r h; simp at h)
  | succ m =>
    rw [encElem_succ]
    show parseTup (fuel + 1) (3 :: (encElem m ++ X)) = _
    rw [parseTup]
    · have hm : parseElem (3 :: (encElem m ++ X)) = some (m + 1, X) := by
        show (parseElem (encElem m ++ X)).map (fun p => (p.1 + 1, p.2)) = _
        rw [parseElem_rt]
        rfl
      rw [hm]
    all_goals (intro r h; simp at h)

theorem parseTup_rt (t : KeyTup) (r : Bytes) :
    ∀ fuel, t.length < fuel → parseTup fuel (encTup t ++ r) = some (t, r) := by
  induction t generalizing r with
  | nil => intro fuel _; exact parseTup_one fuel r
  | cons n s ih =>
    intro fuel hf
    match fuel, hf with
    | fuel + 1, hf =>
      show parseTup (fuel + 1) ((encElem n ++ encTup s) ++ r) = _
      rw [List.append_assoc, parseTup_step, ih r fuel (Nat.lt_of_succ_lt_succ hf)]

theorem encTup_length_pos (t : KeyTup) : 0 < (encTup t).length := by
  cases t with
  | nil => simp [encTup]
  | cons n s => simp [encTup, encElem]

theorem length_lt_encTup_length (t : KeyTup) :
    t.length < (encTup t).length := by
  induction t with
  | nil => simp [encTup]
  | cons n s ih =>
    simp only [encTup, List.length_append, List.length_cons, encElem,
      List.length_replicate]
    omega

theorem encTup_ne_nil (t : KeyTup) : encTup t ≠ [] := by
  intro h
  have := encTup_length_pos t
  rw [h] at this
  simp at this

theorem encTup_injective {t u : KeyTup} (h : encTup t = encTup u) : t = u := by
  have h1 := parseTup_rt t [] (t.length + u.length + 1) (by omega)
  have h2 := parseTup_rt u [] (t.length + u.length + 1) (by omega)
  rw [List.append_nil] at h1 h2
  rw [h] at h1
  rw [h1] at h2
  exact congrArg Prod.fst (Option.some.inj h2)

theorem encTup_append_injective {t u t' u' : KeyTup}
    (h : encTup t ++ encTup u = encTup t' ++ encTup u') :
    t = t' ∧ u = u' := by
  have h1 := parseTup_rt t (encTup u) (t.length + t'.length + 1) (by omega)
  have h2 := parseTup_rt t' (encTup u') (t.length + t'.length + 1) (by omega)
  rw [h] at h1
  rw [h1] at h2
  have h3 := Option.some.inj h2
  exact ⟨congrArg Prod.fst h3, encTup_injective (congrArg Prod.snd h3)⟩

theorem parseTups_rt (ts : List KeyTup) :
    ∀ fuel, ((ts.map encTup).flatten).length ≤ fuel →
    parseTups fuel ((ts.map encTup).flatten) = some ts := by
  induction ts with
  | nil => intro fuel _; simp [parseTups]
  | cons t ts ih =>
    intro fuel hf
    simp only [List.map_cons, List.flatten_cons] at hf ⊢
    have hfp : 0 < fuel := by
      have h1 := encTup_length_pos t
      simp only [List.length_append] at hf
      omega
    match fuel, hfp, hf with
    | fuel + 1, _, hf =>
      have hlen : t.length < fuel + 1 := by
        have h1 := length_lt_encTup_length t
        simp only [List.length_append] at hf
        omega
      have hrest : ((ts.map encTup).flatten).length ≤ fuel := by
        have := encTup_length_pos t
        simp only [List.length_append] at hf
        omega
      have hstep : parseTups (fuel + 1) (encTup t ++ (ts.map encTup).flatten) =
          match parseTups fuel ((ts.map encTup).flatten) with
          | none => none
          | some us => some (t :: us) := by
        cases hn : encTup t ++ (ts.map encTup).flatten with
        | nil => exact absurd (List.append_eq_nil.mp hn).1 (encTup_ne_nil t)
        | cons hd tl =>
          rw [parseTups, ← hn, parseTup_rt t _ (fuel + 1) hlen]
      rw [hstep, ih fuel hrest]

theorem unpacks_rt (pfx : Bytes) (ts : List KeyTup) :
    unpacks pfx (packsL pfx ts) = ts := by
  unfold unpacks packsL
  rw [if_pos (hasPfx_append pfx _)]
  rw [List.drop_left]
  rw [parseTups_rt ts _ (by simp)]
  rfl

theorem unpacks_single (pfx : Bytes) (t : KeyTup) :
    unpacks pfx (pfx ++ encTup t) = [t] := by
  have := unpacks_rt pfx [t]
  simpa [packsL] using this

theorem unpacks_pair (pfx : Bytes) (t u : KeyTup) :
    unpacks pfx (pfx ++ (encTup t ++ encTup u)) = [t, u] := by
  have := unpacks_rt pfx [t, u]
  simpa [packsL] using this

theorem unpacks_mismatch (pfx s : Bytes) (h : hasPfx pfx s = false) :
    unpacks pfx s = [] := by
  simp [unpacks, h]

theorem unaryInt_rt (k : Nat) (r : Bytes) :
    ∀ c, unaryInt (List.replicate k 5 ++ 4 :: r) c = some (c + k, r) := by
  induction k with
  | zero => intro c; simp [unaryInt]
  | succ k ih =>
    intro c
    rw [List.replicate_succ]
    calc unaryInt ((5 :: List.replicate k 5) ++ 4 :: r) c
        = unaryInt (List.replicate k 5 ++ 4 :: r) (c + 1) := rfl
      _ = some (c + 1 + k, r) := ih (c + 1)
      _ = some (c + (k + 1), r) := by rw [show c + 1 + k = c + (k + 1) from by omega]

theorem packInt_small (n : Nat) (h : n < 240) : packInt n = [n + 6] := by
  simp [packInt, h]

theorem unpackInt_cons (b : Nat) (r : Bytes) :
    unpackInt (b :: r) =
      if b = 246 then (unaryInt r 0).map (fun p => (240 + p.1, p.2))
      else if 6 ≤ b ∧ b ≤ 245 then some (b - 6, r) else none := rfl

set_option maxRecDepth 8000 in
theorem unpackInt_rt (n : Nat) (r : Bytes) :
    unpackInt (packInt n ++ r) = some (n, r) := by
  by_cases h : n < 240
  · rw [packInt_small n h]
    show unpackInt ((n + 6) :: r) = some (n, r)
    rw [unpackInt_cons]
    rw [if_neg (by omega : ¬ n + 6 = 246)]
    rw [if_pos (by omega : 6 ≤ n + 6 ∧ n + 6 ≤ 245)]
    rw [show n + 6 - 6 = n from by omega]
  · rw [packInt, if_neg h]
    show unpackInt (246 :: ((List.replicate (n - 240) 5 ++ [4]) ++ r)) = some (n, r)
    rw [unpackInt_cons]
    rw [if_pos rfl]
    rw [List.append_assoc]
    rw [show ([4] : Bytes) ++ r = 4 :: r from rfl]
    rw [unaryInt_rt (n - 240) r 0]
    show some (240 + (0 + (n - 240)), r) = some (n, r)
    rw [show 240 + (0 + (n - 240)) = n from by omega]

/-! ## Lemmas: the engine model -/

theorem enginePut_cons (k' v' : Bytes) (t : Engine) (k v : Bytes) :
    enginePut ((k', v') :: t) k v =
      if bltB k k' then (k, v) :: (k', v') :: t
      else if k = k' then (k, v) :: t
      else (k', v') :: enginePut t k v := rfl

theorem mem_enginePut_sub {e : Engine} {k v : Bytes} :
    ∀ y ∈ enginePut e k v, y = (k, v) ∨ y ∈ e := by
  induction e with
  | nil =>
    intro y hy
    simp only [enginePut, List.mem_singleton] at hy
    exact Or.inl hy
  | cons hd t ih =>
    obtain ⟨k', v'⟩ := hd
    intro y hy
    rw [enginePut_cons] at hy
    split_ifs at hy with h1 h2
    · rcases List.mem_cons.mp hy with rfl | hy
      · exact Or.inl rfl
      · exact Or.inr hy
    · rcases List.mem_cons.mp hy with rfl | hy
      · exact Or.inl rfl
      · exact Or.inr (List.mem_cons_of_mem _ hy)
    · rcases List.mem_cons.mp hy with rfl | hy
      · exact Or.inr (List.mem_cons_self _ _)
      · rcases ih y hy with h | h
        · exact Or.inl h
        · exact Or.inr (List.mem_cons_of_mem _ h)

theorem rel_head {e : Engine} {a : Bytes × Bytes} (he : ESorted (a :: e)) :
    ∀ z ∈ e, bltB a.1 z.1 = true :=
  fun z hz => List.rel_of_pairwise_cons he hz

theorem ESorted_tail {e : Engine} {a : Bytes × Bytes} (he : ESorted (a :: e)) :
    ESorted e :=
  List.Pairwise.of_cons he

theorem ESorted_enginePut {e : Engine} (he : ESorted e) (k v : Bytes) :
    ESorted (enginePut e k v) := by
  induction e with
  | nil =>
    simp [enginePut, ESorted]
  | cons hd t ih =>
    obtain ⟨k', v'⟩ := hd
    rw [enginePut_cons]
    split_ifs with h1 h2
    · refine List.Pairwise.cons ?_ he
      intro z hz
      rcases List.mem_cons.mp hz with rfl | hz
      · exact h1
      · exact bltB_trans h1 (rel_head he z hz)
    · subst h2
      refine List.Pairwise.cons ?_ (ESorted_tail he)
      intro z hz
      exact rel_head he z hz
    · refine List.Pairwise.cons ?_ (ih (ESorted_tail he))
      intro z hz
      rcases mem_enginePut_sub z hz with rfl | hz2
      · rcases bltB_total k k' with rfl | h | h
        · exact absurd rfl h2
        · exact absurd h (by simp [h1])
        · exact h
      · exact rel_head he z hz2

theorem mem_enginePut_iff {e : Engine} (he : ESorted e) (k v : Bytes)
    (y : Bytes × Bytes) :
    y ∈ enginePut e k v ↔ y = (k, v) ∨ (y ∈ e ∧ y.1 ≠ k) := by
  induction e with
  | nil => simp [enginePut]
  | cons hd t ih =>
    obtain ⟨k', v'⟩ := hd
    rw [enginePut_cons]
    split_ifs with h1 h2
    · constructor
      · intro hy
        rcases List.mem_cons.mp hy with rfl | hy
        · exact Or.inl rfl
        · refine Or.inr ⟨hy, ?_⟩
          rcases List.mem_cons.mp hy with rfl | hy2
          · intro hk
            have hk' : k' = k := hk
            rw [hk'] at h1
            rw [bltB_irrefl] at h1
            simp at h1
          · intro hk
            have := rel_head he y hy2
            rw [hk] at this
            have h3 := bltB_trans h1 this
            rw [bltB_irrefl] at h3
            simp at h3
      · intro hy
        rcases hy with rfl | ⟨hy, _⟩
        · exact List.mem_cons_self _ _
        · exact List.mem_cons_of_mem _ hy
    · subst h2
      constructor
      · intro hy
        rcases List.mem_cons.mp hy with rfl | hy
        · exact Or.inl rfl
        · refine Or.inr ⟨List.mem_cons_of_mem _ hy, ?_⟩
          intro hk
          have := rel_head he y hy
          rw [hk] at this
          rw [bltB_irrefl] at this
          simp at this
      · intro hy
        rcases hy with rfl | ⟨hy, hne⟩
        · exact List.mem_cons_self _ _
        · rcases List.mem_cons.mp hy with rfl | hy2
          · exact absurd rfl hne
          · exact List.mem_cons_of_mem _ hy2
    · constructor
      · intro hy
        rcases List.mem_cons.mp hy with rfl | hy
        · exact Or.inr ⟨List.mem_cons_self _ _, fun hk => h2 hk.symm⟩
        · rcases (ih (ESorted_tail he)).mp hy with h | ⟨h3, h4⟩
          · exact Or.inl h
          · exact Or.inr ⟨List.mem_cons_of_mem _ h3, h4⟩
      · intro hy
        rcases hy with rfl | ⟨hy, hne⟩
        · exact List.mem_cons_of_mem _
            ((ih (ESorted_tail he)).mpr (Or.inl rfl))
        · rcases List.mem_cons.mp hy with rfl | hy2
          · exact List.mem_cons_self _ _
          · exact List.mem_cons_of_mem _
              ((ih (ESorted_tail he)).mpr (Or.inr ⟨hy2, hne⟩))

theorem mem_engineDelete_iff (e : Engine) (k : Bytes) (y : Bytes × Bytes) :
    y ∈ engineDelete e k ↔ y ∈ e ∧ y.1 ≠ k := by
  simp [engineDelete, List.mem_filter]

theorem ESorted_engineDelete {e : Engine} (he : ESorted e) (k : Bytes) :
    ESorted (engineDelete e k) :=
  List.Pairwise.sublist (List.filter_sublist e) he

theorem ESorted_iterF {e : Engine} (he : ESorted e) (s : Bytes) :
    ESorted (engineIterF e s) :=
  List.Pairwise.sublist (List.filter_sublist e) he

theorem head?_mem {α : Type} {l : List α} {a : α} (h : l.head? = some a) :
    a ∈ l := by
  cases l with
  | nil => simp at h
  | cons b t =>
    simp only [List.head?_cons, Option.some.injEq] at h
    rw [← h]
    exact List.mem_cons_self _ _

theorem iterF_head_of_mem {e : Engine} (he : ESorted e) {s v : Bytes}
    (hm : (s, v) ∈ e) :
    (engineIterF e s).head? = some (s, v) := by
  induction e with
  | nil => cases hm
  | cons hd t ih =>
    obtain ⟨k', v'⟩ := hd
    rcases List.mem_cons.mp hm with heq | hm2
    · injection heq with h1 h2
      subst h1
      subst h2
      unfold engineIterF
      rw [List.filter_cons, if_pos (by simp [bleB_refl])]
      rfl
    · have hlt : bltB k' s = true := rel_head he (s, v) hm2
      have hble : bleB s k' = false := by
        simp [bleB, hlt]
      unfold engineIterF
      rw [List.filter_cons, if_neg (by simp [hble])]
      exact ih (ESorted_tail he) hm2

theorem iterF_mem {e : Engine} {s : Bytes} {y : Bytes × Bytes}
    (h : y ∈ engineIterF e s) : y ∈ e ∧ bleB s y.1 = true := by
  have := List.mem_filter.mp h
  exact ⟨this.1, by simpa using this.2⟩

/-! ## Lemmas: `next_greater` -/

theorem dropWhile_head_not {α : Type} (p : α → Bool) (l : List α) {x : α}
    (h : (l.dropWhile p).head? = some x) : p x = false := by
  induction l with
  | nil => simp [List.dropWhile] at h
  | cons a t ih =>
    rw [List.dropWhile_cons] at h
    split_ifs at h with hp
    · exact ih h
    · simp only [List.head?_cons, Option.some.injEq] at h
      rw [← h]
      simp only [Bool.not_eq_true] at hp
      exact hp

theorem hasPfx_iff_append {p t : Bytes} :
    hasPfx p t = true ↔ ∃ ext, t = p ++ ext := by
  induction p generalizing t with
  | nil => simp [hasPfx]
  | cons a p ih =>
    cases t with
    | nil =>
      simp [hasPfx]
    | cons b t =>
      simp only [hasPfx, Bool.and_eq_true, beq_iff_eq, List.cons_append,
        List.cons.injEq]
      rw [ih]
      constructor
      · rintro ⟨rfl, ext, rfl⟩
        exact ⟨ext, rfl, rfl⟩
      · rintro ⟨ext, rfl, rfl⟩
        exact ⟨rfl, ext, rfl⟩

/-- Claim C9, main theorem.  See `claim_C9` below. -/
theorem next_greater_spec (s : Bytes) (hne : s ≠ [])
    (hbytes : ∀ b ∈ s, b < 256) :
    ((∀ b ∈ s, b = 255) → next_greater s = []) ∧
    ((∃ b ∈ s, b ≠ 255) →
      next_greater s ≠ [] ∧ bltB s (next_greater s) = true ∧
      ∀ t : Bytes, hasPfx s t = true → bltB t (next_greater s) = true) := by
  constructor
  · intro hall
    have hD : s.reverse.dropWhile (· == 255) = [] := by
      rw [List.dropWhile_eq_nil_iff]
      intro x hx
      simp [hall x (List.mem_reverse.mp hx)]
    unfold next_greater
    rw [hD]
    rfl
  · intro hex
    have hD : s.reverse.dropWhile (· == 255) ≠ [] := by
      intro hD
      rw [List.dropWhile_eq_nil_iff] at hD
      obtain ⟨b, hb, hbne⟩ := hex
      have := hD b (List.mem_reverse.mpr hb)
      simp at this
      exact hbne this
    obtain ⟨cc, D', hcd⟩ : ∃ cc D', s.reverse.dropWhile (· == 255) = cc :: D' := by
      cases hD2 : s.reverse.dropWhile (· == 255) with
      | nil => exact absurd hD2 hD
      | cons cc D' => exact ⟨cc, D', rfl⟩
    have hcne : cc ≠ 255 := by
      have := dropWhile_head_not (· == 255) s.reverse (x := cc)
        (by rw [hcd]; rfl)
      simpa using this
    have hs2 : (s.reverse.dropWhile (· == 255)).reverse = D'.reverse ++ [cc] := by
      rw [hcd]
      simp
    have hng : next_greater s = D'.reverse ++ [cc + 1] := by
      unfold next_greater
      rw [hs2]
      rw [List.getLast?_concat]
      rw [List.dropLast_concat]
    have hrev : s.reverse = s.reverse.takeWhile (· == 255) ++ (cc :: D') := by
      conv_lhs =>
        rw [← List.takeWhile_append_dropWhile (p := (· == 255)) (l := s.reverse)]
      rw [hcd]
    have hdecomp : s = (D'.reverse ++ [cc]) ++
        (s.reverse.takeWhile (· == 255)).reverse := by
      have h5 := congrArg List.reverse hrev
      rw [List.reverse_reverse] at h5
      conv_lhs => rw [h5]
      rw [List.reverse_append]
      simp
    have hkey : ∀ X : Bytes, bltB ((D'.reverse ++ [cc]) ++ X)
        (D'.reverse ++ [cc + 1]) = true := by
      intro X
      rw [List.append_assoc]
      rw [blt_append_same]
      show bltB (cc :: X) [cc + 1] = true
      simp [bltB]
    refine ⟨by simp [hng], ?_, ?_⟩
    · rw [hng]
      conv_lhs => rw [hdecomp]
      exact hkey _
    · intro t ht
      obtain ⟨ext, rfl⟩ := hasPfx_iff_append.mp ht
      rw [hng]
      conv_lhs => rw [hdecomp]
      rw [List.append_assoc, List.append_assoc]
      rw [← List.append_assoc]
      exact hkey _

/-! ## Lemmas: batch layout and decoding -/

theorem offsLoop_rt (lens : List Nat) (rest : Bytes) :
    ∀ pos, offsLoop lens.length pos ((lens.map packInt).flatten ++ rest) =
      some (sumsFrom pos lens, rest) := by
  induction lens with
  | nil => intro pos; simp [offsLoop, sumsFrom]
  | cons a r ih =>
    intro pos
    simp only [List.map_cons, List.flatten_cons, List.length_cons,
      List.append_assoc]
    rw [offsLoop, unpackInt_rt]
    simp only [Option.bind_eq_bind, Option.some_bind]
    rw [ih (pos + a)]
    rfl

theorem decode_offsets_batch (lens : List Nat) (rest : Bytes) :
    decode_offsets (packInt lens.length ++ ((lens.map packInt).flatten ++ rest)) =
      some (offsetsOf lens,
        (packInt lens.length ++ (lens.map packInt).flatten).length) := by
  unfold decode_offsets
  rw [unpackInt_rt]
  simp only [Option.bind_eq_bind, Option.some_bind]
  rw [offsLoop_rt lens rest 0]
  simp only [Option.some_bind]
  unfold offsetsOf
  have hlen : (packInt lens.length ++ ((lens.map packInt).flatten ++ rest)).length
      - rest.length = (packInt lens.length ++ (lens.map packInt).flatten).length := by
    simp only [List.length_append]
    omega
  rw [hlen]

theorem drop_append_len {α : Type} (l₁ l₂ : List α) (n : Nat) :
    (l₁ ++ l₂).drop (l₁.length + n) = l₂.drop n := by
  induction l₁ with
  | nil => simp
  | cons a t ih => simpa [Nat.succ_add] using ih

theorem sumsFrom_shift (l : List Nat) :
    ∀ c p, sumsFrom (c + p) l = (sumsFrom p l).map (c + ·) := by
  induction l with
  | nil => intro c p; simp [sumsFrom]
  | cons a r ih =>
    intro c p
    simp only [sumsFrom, List.map_cons]
    rw [show c + p + a = c + (p + a) from by omega]
    rw [ih c (p + a)]

theorem offsets_get_succ (dl : Nat) (lens : List Nat) (j : Nat) :
    (offsetsOf (dl :: lens)).get? (j + 1) =
      ((offsetsOf lens).get? j).map (dl + ·) := by
  show (sumsFrom 0 (dl :: lens)).get? j = _
  have h0 : sumsFrom 0 (dl :: lens) = dl :: sumsFrom dl lens := by
    simp [sumsFrom]
  rw [h0]
  cases j with
  | zero =>
    simp [offsetsOf]
  | succ j =>
    show (sumsFrom dl lens).get? j = ((sumsFrom 0 lens).get? j).map (dl + ·)
    have hs : sumsFrom dl lens = (sumsFrom 0 lens).map (dl + ·) := by
      have := sumsFrom_shift lens dl 0
      simpa using this
    rw [hs, List.get?_map]

theorem slice_flatten (datas : List Bytes) :
    ∀ i, sliceAt (offsetsOf (datas.map List.length)) datas.flatten i =
      datas.get? i := by
  induction datas with
  | nil =>
    intro i
    cases i with
    | zero => simp [sliceAt, offsetsOf, sumsFrom]
    | succ i => simp [sliceAt, offsetsOf, sumsFrom]
  | cons d ds ih =>
    intro i
    cases i with
    | zero =>
      show sliceAt (offsetsOf (d.length :: ds.map List.length))
        (d ++ ds.flatten) 0 = some d
      unfold sliceAt
      have h1 : (offsetsOf (d.length :: ds.map List.length)).get? 0 = some 0 := rfl
      have h2 : (offsetsOf (d.length :: ds.map List.length)).get? 1 =
          some d.length := by
        rw [offsets_get_succ]
        simp [offsetsOf]
      rw [h1, h2]
      simp [List.take_left]
    | succ i =>
      show sliceAt (offsetsOf (d.length :: ds.map List.length))
        (d ++ ds.flatten) (i + 1) = ds.get? i
      rw [← ih i]
      unfold sliceAt
      rw [offsets_get_succ, offsets_get_succ]
      cases ha : (offsetsOf (ds.map List.length)).get? i with
      | none => rfl
      | some a =>
        cases hb : (offsetsOf (ds.map List.length)).get? (i + 1) with
        | none => rfl
        | some b =>
          simp only [Option.map_some']
          congr 1
          rw [show d.length + a = d.length + a from rfl]
          rw [drop_append_len d ds.flatten a]
          congr 1
          omega

theorem batchYield_eq (keys : List KeyTup) (datas : List Bytes) :
    ∀ idxs : List Nat, (∀ i ∈ idxs, i < keys.length) →
      (∀ i ∈ idxs, i < datas.length) →
    batchYield keys (offsetsOf (datas.map List.length)) datas.flatten idxs
      = idxs.map (fun i => Except.ok (true, (keys.get? i).getD [],
          (datas.get? i).getD [])) := by
  intro idxs
  induction idxs with
  | nil => intro _ _; rfl
  | cons i is ih =>
    intro hk hd
    have hik : i < keys.length := hk i (List.mem_cons_self _ _)
    have hid : i < datas.length := hd i (List.mem_cons_self _ _)
    obtain ⟨k, hkk⟩ : ∃ k, keys.get? i = some k := by
      cases hg : keys.get? i with
      | none => rw [List.get?_eq_none] at hg; omega
      | some k => exact ⟨k, rfl⟩
    obtain ⟨dd, hdd⟩ : ∃ dd, datas.get? i = some dd := by
      cases hg : datas.get? i with
      | none => rw [List.get?_eq_none] at hg; omega
      | some dd => exact ⟨dd, rfl⟩
    rw [batchYield, hkk, slice_flatten datas i, hdd]
    rw [ih (fun j hj => hk j (List.mem_cons_of_mem _ hj))
        (fun j hj => hd j (List.mem_cons_of_mem _ hj))]
    rw [List.map_cons, hkk, hdd]
    rfl

theorem map_range_get {α β : Type} (l : List α) (d : α) (g : α → β) :
    (List.range l.length).map (fun i => g ((l.get? i).getD d)) = l.map g := by
  induction l with
  | nil => rfl
  | cons a t ih =>
    rw [List.length_cons, List.range_succ_eq_map, List.map_cons, List.map_map]
    congr 1

theorem two_le_exists {α : Type} {l : List α} (h : 2 ≤ l.length) :
    ∃ a b t, l = a :: b :: t := by
  cases l with
  | nil => simp at h
  | cons a l1 =>
    cases l1 with
    | nil => simp at h
    | cons b t => exact ⟨a, b, t, rfl⟩

theorem hasPfx_packsL (p : Bytes) (ts : List KeyTup) :
    hasPfx p (packsL p ts) = true := by
  unfold packsL
  exact hasPfx_append p _

theorem prepare_batch_multi {V : Type} (c : Ctx V)
    (recs : List (KeyTup × Bytes)) (h2 : 2 ≤ recs.length) :
    Collection.prepare_batch c recs =
      (packsL (cPfx c) ((recs.map Prod.fst).reverse),
       packInt recs.length ++
         (((recs.map (fun r => r.2.length)).map packInt).flatten ++
           9 :: (recs.map Prod.snd).flatten)) := by
  unfold Collection.prepare_batch packsL
  rw [if_neg (by omega)]
  simp [List.map_map]
  rfl

theorem logiLoop_nil {V : Type} (c : Ctx V) (rev : Bool) :
    logiLoop c [] rev = [] := rfl

theorem logicalIter_singleton {V : Type} (c : Ctx V) (k v : Bytes) (rev : Bool) :
    logicalIter c [(k, v)] rev =
      if hasPfx (cPfx c) k then logiLoop c [(k, v)] rev
      else logiLoop c [] rev := rfl

theorem logicalIter_prepare {V : Type} (c : Ctx V)
    (recs : List (KeyTup × Bytes)) (h2 : 2 ≤ recs.length) (rev : Bool) :
    logicalIter c [Collection.prepare_batch c recs] rev =
      (if rev then recs.reverse else recs).map
        (fun r => Except.ok (true, r.1, r.2)) := by
  rw [prepare_batch_multi c recs h2]
  have hu : unpacks (cPfx c) (packsL (cPfx c) ((recs.map Prod.fst).reverse)) =
      (recs.map Prod.fst).reverse := unpacks_rt _ _
  obtain ⟨k1, k2, kr, hk⟩ : ∃ a b t, (recs.map Prod.fst).reverse = a :: b :: t :=
    two_le_exists (by simpa using h2)
  have hdec := decode_offsets_batch (recs.map (fun r => r.2.length))
    (9 :: (recs.map Prod.snd).flatten)
  rw [List.length_map] at hdec
  have hdrop : (packInt recs.length ++
      (((recs.map (fun r => r.2.length)).map packInt).flatten ++
        9 :: (recs.map Prod.snd).flatten)).drop
      ((packInt recs.length ++
        ((recs.map (fun r => r.2.length)).map packInt).flatten).length) =
      9 :: (recs.map Prod.snd).flatten := by
    rw [← List.append_assoc]
    exact List.drop_left _ _
  rw [logicalIter_singleton]
  rw [if_pos (hasPfx_packsL _ _)]
  rw [logiLoop]
  rw [hu, hk]
  have hlen : (k1 :: k2 :: kr).length = recs.length := by
    rw [← hk]
    simp
  have hrevk : (k1 :: k2 :: kr).reverse = recs.map Prod.fst := by
    rw [← hk, List.reverse_reverse]
  simp only [hdec]
  rw [hdrop]
  show (let keysF := (k1 :: k2 :: kr).reverse
        let idxs := if rev then (List.range (k1 :: k2 :: kr).length).reverse
                    else List.range (k1 :: k2 :: kr).length
        batchYield keysF (offsetsOf (recs.map fun r => r.2.length))
          (recs.map Prod.snd).flatten idxs ++ logiLoop c [] rev) = _
  rw [logiLoop_nil, List.append_nil]
  rw [hrevk, hlen]
  have hoffs : offsetsOf (recs.map fun r => r.2.length) =
      offsetsOf ((recs.map Prod.snd).map List.length) := by
    rw [List.map_map]
    rfl
  rw [hoffs]
  have hfun : ∀ i, i < recs.length →
      (Except.ok (true, ((recs.map Prod.fst).get? i).getD [],
        ((recs.map Prod.snd).get? i).getD []) :
          Except String (Bool × KeyTup × Bytes)) =
      (fun r => Except.ok (true, r.1, r.2)) ((recs.get? i).getD ([], [])) := by
    intro i _
    rw [List.get?_map, List.get?_map]
    cases recs.get? i <;> rfl
  cases rev with
  | false =>
    rw [if_neg (by simp)]
    rw [batchYield_eq (recs.map Prod.fst) (recs.map Prod.snd)
      (List.range recs.length)
      (fun i hi => by simpa using List.mem_range.mp hi)
      (fun i hi => by simpa using List.mem_range.mp hi)]
    rw [if_neg (by simp)]
    rw [List.map_congr_left (fun i hi => hfun i (List.mem_range.mp hi))]
    exact map_range_get recs ([], []) (fun r => Except.ok (true, r.1, r.2))
  | true =>
    rw [if_pos rfl]
    rw [batchYield_eq (recs.map Prod.fst) (recs.map Prod.snd)
      (List.range recs.length).reverse
      (fun i hi => by
        simpa using List.mem_range.mp (List.mem_reverse.mp hi))
      (fun i hi => by
        simpa using List.mem_range.mp (List.mem_reverse.mp hi))]
    rw [if_pos rfl]
    rw [List.map_congr_left (fun i hi =>
      hfun i (List.mem_range.mp (List.mem_reverse.mp hi)))]
    rw [List.map_reverse]
    rw [map_range_get recs ([], []) (fun r => Except.ok (true, r.1, r.2))]
    rw [List.map_reverse]

theorem sumsFrom_length (l : List Nat) : ∀ p, (sumsFrom p l).length = l.length := by
  induction l with
  | nil => intro p; rfl
  | cons a r ih => intro p; simp [sumsFrom, ih]

theorem chain_sumsFrom (l : List Nat) :
    ∀ p, List.Chain' (· ≤ ·) (p :: sumsFrom p l) := by
  induction l with
  | nil =>
    intro p
    rw [show sumsFrom p [] = [] from rfl]
    exact List.chain'_singleton p
  | cons a r ih =>
    intro p
    rw [show sumsFrom p (a :: r) = (p + a) :: sumsFrom (p + a) r from rfl]
    rw [List.chain'_cons]
    exact ⟨by omega, ih (p + a)⟩

theorem ble_packsL (p : Bytes) (ts : List KeyTup) :
    bleB p (packsL p ts) = true := by
  unfold packsL
  exact ble_self_append p _

theorem next_greater_single (b : Nat) (h : b ≠ 255) :
    next_greater [b] = [b + 1] := by
  unfold next_greater
  rw [show List.reverse [b] = [b] from rfl]
  rw [show List.dropWhile (· == 255) [b] = [b] from by
    rw [List.dropWhile_cons]
    simp [h]]
  rfl

theorem prepare_batch_fst {V : Type} (c : Ctx V) (recs : List (KeyTup × Bytes)) :
    (Collection.prepare_batch c recs).1 =
      packsL (cPfx c) ((recs.map Prod.fst).reverse) := rfl

/-- Claim C5: for every list of `N > 1` records packed by `_prepare_batch`,
the physical key packs the reversed key list; the physical value is
`varint(N)` then `N` forward-order varint length deltas then the packer
prefix byte then the packed forward concatenation of the raw values; and
`decode_offsets` recovers from that value the ascending array of `N + 1`
offsets starting at 0 by prefix-summing the deltas. -/
theorem claim_C5 {V : Type} (c : Ctx V) (recs : List (KeyTup × Bytes))
    (h2 : 1 < recs.length) :
    Collection.prepare_batch c recs =
      (packsL (cPfx c) ((recs.map Prod.fst).reverse),
       packInt recs.length ++
         (((recs.map (fun r => r.2.length)).map packInt).flatten ++
           9 :: (recs.map Prod.snd).flatten)) ∧
    decode_offsets (Collection.prepare_batch c recs).2 =
      some (offsetsOf (recs.map (fun r => r.2.length)),
        (packInt recs.length ++
          ((recs.map (fun r => r.2.length)).map packInt).flatten).length) ∧
    (offsetsOf (recs.map (fun r => r.2.length))).length = recs.length + 1 ∧
    List.Chain' (· ≤ ·) (offsetsOf (recs.map (fun r => r.2.length))) := by
  have h2' : 2 ≤ recs.length := h2
  refine ⟨prepare_batch_multi c recs h2', ?_, ?_, chain_sumsFrom _ 0⟩
  · rw [prepare_batch_multi c recs h2']
    have hdec := decode_offsets_batch (recs.map (fun r => r.2.length))
      (9 :: (recs.map Prod.snd).flatten)
    rw [List.length_map] at hdec
    exact hdec
  · unfold offsetsOf
    rw [List.length_cons, sumsFrom_length, List.length_map]

/-- Witness for claim C5 at a concrete three-record batch. -/
theorem claim_C5_witness :
    1 < ([(([4] : KeyTup), ([4] : Bytes)), ([5], [5]), ([6], [6])]).length ∧
    decode_offsets (Collection.prepare_batch ctx1
        [([4], [4]), ([5], [5]), ([6], [6])]).2 =
      some (offsetsOf ([([4],[4]),([5],[5]),([6],[6])].map
        (fun r : KeyTup × Bytes => r.2.length)),
        (packInt 3 ++ (([([4],[4]),([5],[5]),([6],[6])].map
          (fun r : KeyTup × Bytes => r.2.length)).map packInt).flatten).length) :=
  ⟨by decide, (claim_C5 ctx1 [([4],[4]),([5],[5]),([6],[6])] (by decide)).2.1⟩

/-- Claim C2: a non-empty strictly-ascending list of records written as a
single physical record by `_prepare_batch`/`_write_batch` round-trips: a
forward logical scan yields exactly the records in order, and a reverse
logical scan yields the reversed list. -/
theorem claim_C2 {V : Type} (c : Ctx V) (recs : List (KeyTup × Bytes))
    (hci : c.collIdx < 240)
    (hne : recs ≠ [])
    (hasc : List.Pairwise (fun a b => bltB a.1 b.1 = true) recs) :
    collScan c (applyOps [] (Collection.write_batch c recs)) none false =
      recs.map Except.ok ∧
    collScan c (applyOps [] (Collection.write_batch c recs)) none true =
      recs.reverse.map Except.ok := by
  have heng : applyOps [] (Collection.write_batch c recs) =
      [Collection.prepare_batch c recs] := by
    unfold Collection.write_batch
    rw [if_neg (by simp [hne])]
    show enginePut [] _ _ = _
    unfold enginePut
    rw [Prod.mk.eta]
  have hble : bleB (cPfx c) (Collection.prepare_batch c recs).1 = true := by
    rw [prepare_batch_fst]
    exact ble_packsL _ _
  have hngc : next_greater (cPfx c) = [c.collIdx + 7] := by
    rw [cPfx, packInt_small _ hci]
    rw [next_greater_single (c.collIdx + 6) (by omega)]
  have hbleR : bleB (Collection.prepare_batch c recs).1
      (next_greater (cPfx c)) = true := by
    rw [hngc, prepare_batch_fst]
    unfold packsL
    rw [cPfx, packInt_small _ hci]
    show (!(bltB ((c.collIdx + 7) :: []) ((c.collIdx + 6) :: _))) = true
    rw [blt_head _ _ (by omega)]
    simp only [Bool.not_eq_true', decide_eq_false_iff_not]
    omega
  have hiterF : engineIterF [Collection.prepare_batch c recs] (cPfx c) =
      [Collection.prepare_batch c recs] := by
    unfold engineIterF
    rw [show ([Collection.prepare_batch c recs] : Engine) =
      Collection.prepare_batch c recs :: [] from rfl]
    rw [List.filter_cons, if_pos (by simp [hble])]
    rfl
  have hiterR : engineIterR [Collection.prepare_batch c recs]
      (next_greater (cPfx c)) = [Collection.prepare_batch c recs] := by
    unfold engineIterR
    rw [show ([Collection.prepare_batch c recs] : Engine) =
      Collection.prepare_batch c recs :: [] from rfl]
    rw [List.filter_cons, if_pos (by simp [hbleR])]
    rfl
  have hfwd : collScan c [Collection.prepare_batch c recs] none false =
      (logicalIter c (engineIterF [Collection.prepare_batch c recs] (cPfx c))
        false).map (fun x => x.map (fun it => (it.2.1, it.2.2))) := rfl
  have hrev : collScan c [Collection.prepare_batch c recs] none true =
      (logicalIter c (engineIterR [Collection.prepare_batch c recs]
        (next_greater (cPfx c))) true).map
        (fun x => x.map (fun it => (it.2.1, it.2.2))) := rfl
  rw [heng, hfwd, hrev, hiterF, hiterR]
  match recs, hne with
  | [r], _ =>
    constructor
    · rw [logicalIter_singleton, if_pos (by rw [prepare_batch_fst]; exact hasPfx_packsL _ _)]
      rw [logiLoop]
      rw [show (Collection.prepare_batch c [r]).1 =
        packsL (cPfx c) [r.1] from rfl]
      rw [unpacks_rt]
      rw [show (Collection.prepare_batch c [r]).2 = 9 :: r.2 from rfl]
      rw [show decompress (9 :: r.2) = Except.ok r.2 from rfl]
      rw [logiLoop_nil]
      rfl
    · rw [logicalIter_singleton, if_pos (by rw [prepare_batch_fst]; exact hasPfx_packsL _ _)]
      rw [logiLoop]
      rw [show (Collection.prepare_batch c [r]).1 =
        packsL (cPfx c) [r.1] from rfl]
      rw [unpacks_rt]
      rw [show (Collection.prepare_batch c [r]).2 = 9 :: r.2 from rfl]
      rw [show decompress (9 :: r.2) = Except.ok r.2 from rfl]
      rw [logiLoop_nil]
      rfl
  | r1 :: r2 :: rs, _ =>
    have h2 : 2 ≤ (r1 :: r2 :: rs).length := by simp
    rw [logicalIter_prepare c _ h2 false, logicalIter_prepare c _ h2 true]
    constructor
    · rw [if_neg (by simp)]
      rw [List.map_map]
      refine List.map_congr_left ?_
      intro r _
      rfl
    · rw [if_pos rfl]
      rw [List.map_map]
      refine List.map_congr_left ?_
      intro r _
      rfl

/-- Witness for claim C2 at a concrete two-record batch. -/
theorem claim_C2_witness :
    ctx1.collIdx < 240 ∧
    ([(([4] : KeyTup), ([4] : Bytes)), ([5], [5])]) ≠ [] ∧
    collScan ctx1
      (applyOps [] (Collection.write_batch ctx1 [([4], [4]), ([5], [5])]))
      none true = [Except.ok ([5], [5]), Except.ok ([4], [4])] := by
  refine ⟨by decide, by decide, ?_⟩
  have h := claim_C2 ctx1 [([4], [4]), ([5], [5])] (by decide) (by decide)
    (by decide)
  exact h.2

/-! ## Lemmas: `Collection.get` on well-formed states -/

theorem logicalIter_cons {V : Type} (c : Ctx V) (k v : Bytes) (rest : Engine)
    (rev : Bool) :
    logicalIter c ((k, v) :: rest) rev =
      if hasPfx (cPfx c) k then logiLoop c ((k, v) :: rest) rev
      else logiLoop c rest rev := rfl

theorem collIter_get_red {V : Type} (c : Ctx V) (e : Engine) (k0 : Nat)
    (kt : List Nat) :
    collIter c e none none (some (k0 :: kt)) (some (k0 :: kt)) false none none
        true =
      takeWhileE (fun it => !(bltB (k0 :: kt) it.2.1))
        (logicalIter c (engineIterF e (cPfx c ++ encTup (k0 :: kt))) false) :=
  rfl

theorem physKeyOf_head {V : Type} (c : Ctx V) (hci : c.collIdx < 240)
    (K : KeyTup) :
    physKeyOf c K = (c.collIdx + 6) :: encTup K := by
  unfold physKeyOf cPfx
  rw [packInt_small _ hci]
  rfl

theorem idxEntryKey_head (j : Nat) (hj : j < 240) (t K : KeyTup) :
    idxEntryKey j t K = (j + 6) :: (encTup t ++ encTup K) := by
  unfold idxEntryKey iPfx
  rw [packInt_small _ hj]
  rfl

theorem physKeyOf_inj {V : Type} (c : Ctx V) {K K' : KeyTup}
    (h : physKeyOf c K = physKeyOf c K') : K = K' := by
  unfold physKeyOf at h
  exact encTup_injective (List.append_cancel_left h)

theorem idxEntryKey_inj {j j' : Nat} (hj : j < 240) (hj' : j' < 240)
    {t t' K K' : KeyTup}
    (h : idxEntryKey j t K = idxEntryKey j' t' K') :
    j = j' ∧ t = t' ∧ K = K' := by
  rw [idxEntryKey_head j hj, idxEntryKey_head j' hj'] at h
  injection h with h1 h2
  have hjj : j = j' := by omega
  obtain ⟨ht, hK⟩ := encTup_append_injective h2
  exact ⟨hjj, ht, hK⟩

theorem physKeyOf_ne_idxEntryKey {V : Type} (c : Ctx V)
    (hci : c.collIdx < 240) {j : Nat} (hj : j < 240)
    (hne : j ≠ c.collIdx) (K t K' : KeyTup) :
    physKeyOf c K ≠ idxEntryKey j t K' := by
  rw [physKeyOf_head c hci, idxEntryKey_head j hj]
  intro h
  injection h with h1 _
  omega

theorem mem_indexKeysOf {V : Type} {c : Ctx V} {K : KeyTup} {v : V}
    {a : Bytes} :
    a ∈ indexKeysOf c K v ↔
      ∃ s ∈ c.indices, ∃ t ∈ normalize (s.func v), a = idxEntryKey s.idx t K := by
  unfold indexKeysOf
  simp only [List.mem_flatten, List.mem_map]
  constructor
  · rintro ⟨l, ⟨s, hs, rfl⟩, hal⟩
    obtain ⟨t, ht, rfl⟩ := List.mem_map.mp hal
    exact ⟨s, hs, t, ht, rfl⟩
  · rintro ⟨s, hs, t, ht, rfl⟩
    exact ⟨(normalize (s.func v)).map (fun t => idxEntryKey s.idx t K),
      ⟨s, hs, rfl⟩, List.mem_map.mpr ⟨t, ht, rfl⟩⟩

theorem bltB_encTup_of_packed {V : Type} (c : Ctx V) {K K' : KeyTup}
    (hne : K ≠ K')
    (hble : bleB (physKeyOf c K) (physKeyOf c K') = true) :
    bltB K K' = true := by
  rcases bltB_total K K' with rfl | h | h
  · exact absurd rfl hne
  · exact h
  · exfalso
    have h2 : bltB (encTup K') (encTup K) = true := encTup_lt h
    have h3 : bltB (physKeyOf c K') (physKeyOf c K) = true := by
      unfold physKeyOf
      rw [blt_append_same]
      exact h2
    rw [bleB, h3] at hble
    simp at hble

theorem hasPfx_physKeyOf {V : Type} (c : Ctx V) (K : KeyTup) :
    hasPfx (cPfx c) (physKeyOf c K) = true := by
  unfold physKeyOf
  exact hasPfx_append _ _

theorem collGetCore_clean {V : Type} (c : Ctx V) {e : Engine}
    {m : List (KeyTup × V)}
    (hci : c.collIdx < 240)
    (hsort : ESorted e)
    (hin : ∀ K v, lookupA m K = some v → (physKeyOf c K, valBytesOf c v) ∈ e)
    (hshape : ∀ a b, (a, b) ∈ e → a.head? = some (c.collIdx + 6) →
      ∃ K v, lookupA m K = some v ∧ a = physKeyOf c K ∧ b = valBytesOf c v)
    (K : KeyTup) (hK : K ≠ []) :
    collGetCore c e none K =
      .ok ((lookupA m K).map (fun v => (false, K, c.vPack v))) := by
  obtain ⟨k0, kt, rfl⟩ : ∃ k0 kt, K = k0 :: kt := by
    cases K with
    | nil => exact absurd rfl hK
    | cons k0 kt => exact ⟨k0, kt, rfl⟩
  unfold collGetCore
  rw [collIter_get_red]
  cases hl : lookupA m (k0 :: kt) with
  | some v =>
    have hmem := hin _ _ hl
    have hhead : (engineIterF e (cPfx c ++ encTup (k0 :: kt))).head? =
        some (physKeyOf c (k0 :: kt), valBytesOf c v) :=
      iterF_head_of_mem hsort hmem
    obtain ⟨S', hS⟩ : ∃ S', engineIterF e (cPfx c ++ encTup (k0 :: kt)) =
        (physKeyOf c (k0 :: kt), valBytesOf c v) :: S' := by
      cases hS0 : engineIterF e (cPfx c ++ encTup (k0 :: kt)) with
      | nil => rw [hS0] at hhead; simp at hhead
      | cons s0 S' =>
        rw [hS0] at hhead
        simp only [List.head?_cons, Option.some.injEq] at hhead
        exact ⟨S', by rw [hhead]⟩
    rw [hS]
    rw [logicalIter_cons, if_pos (hasPfx_physKeyOf c _)]
    rw [logiLoop]
    rw [show unpacks (cPfx c) (physKeyOf c (k0 :: kt)) = [k0 :: kt] from
      unpacks_single (cPfx c) (k0 :: kt)]
    rw [show decompress (valBytesOf c v) = Except.ok (c.vPack v) from rfl]
    rw [takeWhileE]
    rw [if_pos (by simp [bltB_irrefl])]
    rfl
  | none =>
    cases hS0 : engineIterF e (cPfx c ++ encTup (k0 :: kt)) with
    | nil => rfl
    | cons s0 S' =>
      obtain ⟨kb, b0⟩ := s0
      have hs0mem : (kb, b0) ∈ e ∧
          bleB (cPfx c ++ encTup (k0 :: kt)) kb = true :=
        iterF_mem (head?_mem (l := engineIterF e _) (by rw [hS0]; rfl))
      have hsortS := ESorted_iterF hsort (cPfx c ++ encTup (k0 :: kt))
      rw [hS0] at hsortS
      have hcp : cPfx c = [c.collIdx + 6] := by
        rw [cPfx, packInt_small _ hci]
      by_cases hpfx : hasPfx (cPfx c) kb = true
      · have hkbhead : kb.head? = some (c.collIdx + 6) := by
          rw [hcp] at hpfx
          cases kb with
          | nil => simp [hasPfx] at hpfx
          | cons b r =>
            rw [← eq_of_hasPfx_single hpfx]
            rfl
        obtain ⟨K', v', hl', hkb, hb0⟩ := hshape kb b0 hs0mem.1 hkbhead
        have hKne : K' ≠ (k0 :: kt) := by
          intro h
          rw [h, hl] at hl'
          cases hl'
        have hlt : bltB (k0 :: kt) K' = true := by
          refine bltB_encTup_of_packed c (fun h => hKne h.symm) ?_
          have h2 := hs0mem.2
          rw [hkb] at h2
          exact h2
        rw [hkb, hb0]
        rw [logicalIter_cons, if_pos (hasPfx_physKeyOf c _)]
        rw [logiLoop]
        rw [show unpacks (cPfx c) (physKeyOf c K') = [K'] from
          unpacks_single (cPfx c) K']
        rw [show decompress (valBytesOf c v') = Except.ok (c.vPack v') from rfl]
        rw [takeWhileE]
        rw [if_neg (by simp [hlt])]
        rfl
      · rw [logicalIter_cons, if_neg hpfx]
        have hrest : logiLoop c S' false = [] := by
          cases S' with
          | nil => rfl
          | cons s1 S'' =>
            obtain ⟨k1, b1⟩ := s1
            have hkbne : kb ≠ [] := by
              intro h
              have h2 := hs0mem.2
              rw [h, hcp] at h2
              simp [bleB, bltB] at h2
            obtain ⟨h0, r0, rfl⟩ : ∃ h0 r0, kb = h0 :: r0 := by
              cases kb with
              | nil => exact absurd rfl hkbne
              | cons h0 r0 => exact ⟨h0, r0, rfl⟩
            have hh0 : h0 ≠ c.collIdx + 6 := by
              intro h
              apply hpfx
              rw [hcp, h]
              simp [hasPfx]
            have hgt : c.collIdx + 6 < h0 := by
              rcases Nat.lt_trichotomy h0 (c.collIdx + 6) with h | h | h
              · exfalso
                have h2 := hs0mem.2
                rw [hcp] at h2
                unfold bleB at h2
                rw [show ([c.collIdx + 6] : Bytes) ++ encTup (k0 :: kt) =
                  (c.collIdx + 6) :: encTup (k0 :: kt) from rfl] at h2
                rw [blt_head _ _ hh0] at h2
                simp [h] at h2
              · exact absurd h hh0
              · exact h
            have hlt01 : bltB (h0 :: r0) k1 = true :=
              rel_head hsortS (k1, b1) (List.mem_cons_self _ _)
            obtain ⟨h1, r1, rfl⟩ : ∃ h1 r1, k1 = h1 :: r1 := by
              cases k1 with
              | nil => simp [bltB] at hlt01
              | cons h1 r1 => exact ⟨h1, r1, rfl⟩
            have hh1 : c.collIdx + 6 ≠ h1 := by
              by_cases hhh : h0 = h1
              · omega
              · rw [blt_head _ _ hhh] at hlt01
                simp only [decide_eq_true_eq] at hlt01
                omega
            rw [logiLoop]
            rw [show unpacks (cPfx c) (h1 :: r1) = [] from by
              apply unpacks_mismatch
              rw [hcp]
              exact hasPfx_head _ _ hh1]
        rw [hrest]
        rfl

theorem collGetRec_clean {V : Type} (c : Ctx V) {e : Engine}
    {m : List (KeyTup × V)}
    (hci : c.collIdx < 240)
    (hsort : ESorted e)
    (hrt : ∀ v, c.vUnpack (c.vPack v) = some v)
    (hin : ∀ K v, lookupA m K = some v → (physKeyOf c K, valBytesOf c v) ∈ e)
    (hshape : ∀ a b, (a, b) ∈ e → a.head? = some (c.collIdx + 6) →
      ∃ K v, lookupA m K = some v ∧ a = physKeyOf c K ∧ b = valBytesOf c v)
    (K : KeyTup) (hK : K ≠ []) (dflt : Option V) :
    collGetRec c e none K dflt =
      .ok (match lookupA m K with
        | some v => some ⟨v, some K, false, some (indexKeysOf c K v), true⟩
        | none => dflt.map (fun dv => ⟨dv, none, false, none, true⟩)) := by
  unfold collGetRec
  rw [collGetCore_clean c hci hsort hin hshape K hK]
  cases hl : lookupA m K with
  | some v =>
    show (match c.vUnpack (c.vPack v) with
      | none => (Except.error "ValueError: encoder unpack failed" :
          Except String (Option (Rec V)))
      | some v2 => Except.ok (some ⟨v2, some K, false,
          some (indexKeysOf c K v2), true⟩)) = _
    rw [hrt v]
  | none =>
    cases dflt <;> rfl

/-- Extract the physical-record membership direction of `CleanState`. -/
theorem clean_hin {V : Type} {c : Ctx V} {e : Engine} {m : List (KeyTup × V)}
    (hcs : CleanState c e m) :
    ∀ K v, lookupA m K = some v → (physKeyOf c K, valBytesOf c v) ∈ e :=
  fun K v hl => (hcs.2.2.2 _ _).mpr (Or.inl ⟨K, v, hl, rfl, rfl⟩)

/-- Extract the collection-region shape direction of `CleanState`. -/
theorem clean_hshape {V : Type} {c : Ctx V} {e : Engine}
    {m : List (KeyTup × V)} (hwf : CtxWF c) (hcs : CleanState c e m) :
    ∀ a b, (a, b) ∈ e → a.head? = some (c.collIdx + 6) →
      ∃ K v, lookupA m K = some v ∧ a = physKeyOf c K ∧ b = valBytesOf c v := by
  intro a b hab hhead
  rcases (hcs.2.2.2 a b).mp hab with
    ⟨K, v, hl, rfl, rfl⟩ | ⟨s, hs, K, v, t, hl, ht, rfl, rfl⟩
  · exact ⟨K, v, hl, rfl, rfl⟩
  · exfalso
    rw [idxEntryKey_head s.idx (hwf.2.1 s hs).1] at hhead
    simp only [List.head?_cons, Option.some.injEq] at hhead
    have := (hwf.2.1 s hs).2
    omega

/-! ## Lemmas: engine-write blocks preserve `CleanState` -/

theorem applyOps_append (e : Engine) (l1 l2 : List EOp) :
    applyOps e (l1 ++ l2) = applyOps (applyOps e l1) l2 := by
  induction l1 generalizing e with
  | nil => rfl
  | cons op rest ih =>
    cases op with
    | put k v => exact ih (enginePut e k v)
    | del k => exact ih (engineDelete e k)

theorem ESorted_applyOps {e : Engine} (he : ESorted e) (ops : List EOp) :
    ESorted (applyOps e ops) := by
  induction ops generalizing e with
  | nil => exact he
  | cons op rest ih =>
    cases op with
    | put k v => exact ih (ESorted_enginePut he k v)
    | del k => exact ih (ESorted_engineDelete he k)

theorem mem_applyPuts {e : Engine} (he : ESorted e) (ks : List Bytes)
    (y : Bytes × Bytes) :
    y ∈ applyOps e (ks.map (fun k => EOp.put k [])) ↔
      (y.1 ∈ ks ∧ y.2 = []) ∨ (y ∈ e ∧ y.1 ∉ ks) := by
  induction ks generalizing e with
  | nil => simp [applyOps]
  | cons k ks ih =>
    rw [List.map_cons]
    show y ∈ applyOps (enginePut e k []) (ks.map (fun k => EOp.put k [])) ↔ _
    rw [ih (ESorted_enginePut he k [])]
    rw [mem_enginePut_iff he k [] y]
    obtain ⟨a, b⟩ := y
    simp only [List.mem_cons, Prod.mk.injEq]
    constructor
    · rintro (⟨hk, rfl⟩ | ⟨(⟨rfl, rfl⟩ | ⟨hmem, hne⟩), hnk⟩)
      · exact Or.inl ⟨Or.inr hk, rfl⟩
      · exact Or.inl ⟨Or.inl rfl, rfl⟩
      · exact Or.inr ⟨hmem, fun hc => hc.elim hne hnk⟩
    · rintro (⟨(rfl | hk), rfl⟩ | ⟨hmem, hnk⟩)
      · by_cases hks : a ∈ ks
        · exact Or.inl ⟨hks, rfl⟩
        · exact Or.inr ⟨Or.inl ⟨rfl, rfl⟩, hks⟩
      · exact Or.inl ⟨hk, rfl⟩
      · exact Or.inr ⟨Or.inr ⟨hmem, fun hc => hnk (Or.inl hc)⟩,
          fun hc => hnk (Or.inr hc)⟩

theorem mem_applyDels (e : Engine) (ks : List Bytes) (y : Bytes × Bytes) :
    y ∈ applyOps e (ks.map EOp.del) ↔ y ∈ e ∧ y.1 ∉ ks := by
  induction ks generalizing e with
  | nil => simp [applyOps]
  | cons k ks ih =>
    rw [List.map_cons]
    show y ∈ applyOps (engineDelete e k) (ks.map EOp.del) ↔ _
    rw [ih (engineDelete e k)]
    rw [mem_engineDelete_iff e k y]
    simp only [List.mem_cons]
    constructor
    · rintro ⟨⟨hmem, hne⟩, hnk⟩
      exact ⟨hmem, by
        intro hcon
        rcases hcon with hcon | hcon
        · exact hne hcon
        · exact hnk hcon⟩
    · rintro ⟨hmem, hnk⟩
      exact ⟨⟨hmem, fun hcon => hnk (Or.inl hcon)⟩,
        fun hcon => hnk (Or.inr hcon)⟩

/-! ## Lemmas: abstract-map bookkeeping -/

theorem find?_cons_eq {α : Type} (p : α → Bool) (a : α) (l : List α) :
    List.find? p (a :: l) = if p a then some a else List.find? p l := by
  by_cases h : p a = true
  · rw [if_pos h]
    exact List.find?_cons_of_pos l h
  · rw [if_neg h]
    exact List.find?_cons_of_neg l (by simpa using h)

theorem lookupA_mErase_self {V : Type} (m : List (KeyTup × V)) (K : KeyTup) :
    lookupA (mErase m K) K = none := by
  unfold lookupA mErase
  induction m with
  | nil => rfl
  | cons p m ih =>
    rw [List.filter_cons]
    by_cases h : (p.1 == K) = true
    · rw [if_neg (by simp [h])]
      exact ih
    · rw [if_pos (by simp [h])]
      rw [find?_cons_eq, if_neg h]
      exact ih

theorem lookupA_mErase_ne {V : Type} (m : List (KeyTup × V)) {K K' : KeyTup}
    (h : K' ≠ K) : lookupA (mErase m K) K' = lookupA m K' := by
  unfold lookupA mErase
  induction m with
  | nil => rfl
  | cons p m ih =>
    rw [List.filter_cons]
    by_cases hp : (p.1 == K) = true
    · rw [if_neg (by simp [hp])]
      rw [find?_cons_eq, if_neg (by
        simp only [beq_iff_eq] at hp ⊢
        rw [hp]
        exact fun hc => h hc.symm)]
      exact ih
    · rw [if_pos (by simp [hp])]
      rw [find?_cons_eq, find?_cons_eq]
      by_cases hq : (p.1 == K') = true
      · rw [if_pos hq, if_pos hq]
      · rw [if_neg hq, if_neg hq]
        exact ih

theorem lookupA_mInsert_self {V : Type} (m : List (KeyTup × V)) (K : KeyTup)
    (v : V) : lookupA (mInsert m K v) K = some v := by
  unfold lookupA mInsert
  rw [find?_cons_eq, if_pos (by simp)]
  rfl

theorem lookupA_mInsert_ne {V : Type} (m : List (KeyTup × V)) {K K' : KeyTup}
    (v : V) (h : K' ≠ K) : lookupA (mInsert m K v) K' = lookupA m K' := by
  show lookupA ((K, v) :: mErase m K) K' = _
  unfold lookupA
  rw [find?_cons_eq, if_neg (by
    simp only [beq_iff_eq]
    exact fun hc => h hc.symm)]
  show lookupA (mErase m K) K' = lookupA m K'
  exact lookupA_mErase_ne m h

theorem nodup_mErase {V : Type} {m : List (KeyTup × V)}
    (hnd : (m.map Prod.fst).Nodup) (K : KeyTup) :
    ((mErase m K).map Prod.fst).Nodup :=
  List.Nodup.sublist (List.Sublist.map _ (List.filter_sublist m)) hnd

theorem nodup_mInsert {V : Type} {m : List (KeyTup × V)}
    (hnd : (m.map Prod.fst).Nodup) (K : KeyTup) (v : V) :
    ((mInsert m K v).map Prod.fst).Nodup := by
  show (K :: (mErase m K).map Prod.fst).Nodup
  refine List.Nodup.cons ?_ (nodup_mErase hnd K)
  intro hmem
  obtain ⟨p, hp, hpK⟩ := List.mem_map.mp hmem
  have h2 := (List.mem_filter.mp hp).2
  rw [hpK] at h2
  simp at h2

theorem keysne_mErase {V : Type} {m : List (KeyTup × V)}
    (hne : ∀ p ∈ m, p.1 ≠ []) (K : KeyTup) :
    ∀ p ∈ mErase m K, p.1 ≠ [] :=
  fun p hp => hne p (List.mem_filter.mp hp).1

theorem keysne_mInsert {V : Type} {m : List (KeyTup × V)}
    (hne : ∀ p ∈ m, p.1 ≠ []) {K : KeyTup} (hK : K ≠ []) (v : V) :
    ∀ p ∈ mInsert m K v, p.1 ≠ [] := by
  intro p hp
  rcases List.mem_cons.mp hp with rfl | hp2
  · exact hK
  · exact keysne_mErase hne K p hp2

theorem mErase_mErase {V : Type} (m : List (KeyTup × V)) (K : KeyTup) :
    mErase (mErase m K) K = mErase m K := by
  unfold mErase
  rw [List.filter_eq_self]
  intro p hp
  exact (List.mem_filter.mp hp).2

theorem physNotIdxKeys {V : Type} (c : Ctx V) (hci : c.collIdx < 240)
    (hidx : ∀ s ∈ c.indices, s.idx < 240 ∧ s.idx ≠ c.collIdx)
    (K₀ K : KeyTup) (v : V) :
    physKeyOf c K₀ ∉ indexKeysOf c K v := by
  intro hmem
  obtain ⟨s, hs, t, ht, heq⟩ := mem_indexKeysOf.mp hmem
  exact physKeyOf_ne_idxEntryKey c hci (hidx s hs).1 (hidx s hs).2 K₀ t K heq

/-- Writing the physical record and its index entries moves a well-formed
state to the state with `(K, v)` inserted, provided either the collection
has no indices (plain overwrite) or `K` is not currently live. -/
theorem putBlock_clean {V : Type} (c : Ctx V) {e : Engine}
    {m : List (KeyTup × V)}
    (hwf : CtxWF c) (hcs : CleanState c e m)
    (K : KeyTup) (v : V) (hK : K ≠ [])
    (hfree : c.indices = [] ∨ lookupA m K = none) :
    CleanState c
      (applyOps e (EOp.put (physKeyOf c K) (valBytesOf c v)
        :: (indexKeysOf c K v).map (fun k => EOp.put k [])))
      (mInsert m K v) := by
  obtain ⟨hsort, hnd, hne, hiff⟩ := hcs
  obtain ⟨hci, hidx, hndidx, hrt, hkf, hbl⟩ := hwf
  have hsort1 : ESorted (enginePut e (physKeyOf c K) (valBytesOf c v)) :=
    ESorted_enginePut hsort _ _
  refine ⟨ESorted_applyOps hsort1 _, nodup_mInsert hnd K v,
    keysne_mInsert hne hK v, ?_⟩
  intro a b
  show (a, b) ∈ applyOps (enginePut e (physKeyOf c K) (valBytesOf c v))
    ((indexKeysOf c K v).map (fun k => EOp.put k [])) ↔ _
  rw [mem_applyPuts hsort1 _ (a, b)]
  rw [mem_enginePut_iff hsort _ _ (a, b)]
  constructor
  · rintro (⟨haidx, hb⟩ | ⟨(heq | ⟨hmemE, hnephys⟩), hnidx⟩)
    · obtain ⟨s, hs, t, ht, rfl⟩ := mem_indexKeysOf.mp haidx
      exact Or.inr ⟨s, hs, K, v, t, lookupA_mInsert_self m K v, ht, rfl, hb⟩
    · injection heq with h1 h2
      exact Or.inl ⟨K, v, lookupA_mInsert_self m K v, h1, h2⟩
    · rcases (hiff a b).mp hmemE with
        ⟨K₁, v₁, hl₁, rfl, rfl⟩ | ⟨s, hs, K₁, v₁, t, hl₁, ht, rfl, rfl⟩
      · have hK₁ : K₁ ≠ K := by
          intro h
          exact hnephys (by rw [h])
        exact Or.inl ⟨K₁, v₁, by rw [lookupA_mInsert_ne m v hK₁]; exact hl₁,
          rfl, rfl⟩
      · have hK₁ : K₁ ≠ K := by
          intro h
          rcases hfree with hfree | hfree
          · rw [hfree] at hs
            cases hs
          · rw [h, hfree] at hl₁
            cases hl₁
        exact Or.inr ⟨s, hs, K₁, v₁, t,
          by rw [lookupA_mInsert_ne m v hK₁]; exact hl₁, ht, rfl, rfl⟩
  · rintro (⟨K', v', hl', rfl, rfl⟩ | ⟨s, hs, K', v', t, hl', ht, rfl, rfl⟩)
    · by_cases hKK : K' = K
      · subst hKK
        rw [lookupA_mInsert_self] at hl'
        injection hl' with hv
        subst hv
        exact Or.inr ⟨Or.inl rfl, physNotIdxKeys c hci hidx _ _ _⟩
      · rw [lookupA_mInsert_ne m v hKK] at hl'
        refine Or.inr ⟨Or.inr ⟨(hiff _ _).mpr (Or.inl ⟨K', v', hl', rfl, rfl⟩),
          ?_⟩, physNotIdxKeys c hci hidx K' K v⟩
        intro h
        exact hKK (physKeyOf_inj c h)
    · by_cases hKK : K' = K
      · subst hKK
        rw [lookupA_mInsert_self] at hl'
        injection hl' with hv
        subst hv
        exact Or.inl ⟨mem_indexKeysOf.mpr ⟨s, hs, t, ht, rfl⟩, rfl⟩
      · rw [lookupA_mInsert_ne m v hKK] at hl'
        refine Or.inr ⟨Or.inr ⟨(hiff _ _).mpr
          (Or.inr ⟨s, hs, K', v', t, hl', ht, rfl, rfl⟩), ?_⟩, ?_⟩
        · intro h
          exact physKeyOf_ne_idxEntryKey c hci (hidx s hs).1 (hidx s hs).2
            K t K' h.symm
        · intro hmem
          obtain ⟨s₂, hs₂, t₂, ht₂, heq⟩ := mem_indexKeysOf.mp hmem
          obtain ⟨_, _, hKeq⟩ := idxEntryKey_inj (hidx s hs).1 (hidx s₂ hs₂).1 heq
          exact hKK hKeq

/-- Deleting the physical record and the index entries of the live record
`(K, v_old)` moves a well-formed state to the state with `K` erased. -/
theorem delBlock_clean {V : Type} (c : Ctx V) {e : Engine}
    {m : List (KeyTup × V)}
    (hwf : CtxWF c) (hcs : CleanState c e m)
    (K : KeyTup) (v_old : V)
    (hl : lookupA m K = some v_old) :
    CleanState c
      (applyOps e (EOp.del (physKeyOf c K) ::
        (indexKeysOf c K v_old).map EOp.del))
      (mErase m K) := by
  obtain ⟨hsort, hnd, hne, hiff⟩ := hcs
  obtain ⟨hci, hidx, hndidx, hrt, hkf, hbl⟩ := hwf
  have hsort1 : ESorted (engineDelete e (physKeyOf c K)) :=
    ESorted_engineDelete hsort _
  refine ⟨ESorted_applyOps hsort1 _, nodup_mErase hnd K,
    keysne_mErase hne K, ?_⟩
  intro a b
  show (a, b) ∈ applyOps (engineDelete e (physKeyOf c K))
    ((indexKeysOf c K v_old).map EOp.del) ↔ _
  rw [mem_applyDels _ _ (a, b)]
  rw [mem_engineDelete_iff _ _ (a, b)]
  constructor
  · rintro ⟨⟨hmemE, hnephys⟩, hnidx⟩
    rcases (hiff a b).mp hmemE with
      ⟨K₁, v₁, hl₁, rfl, rfl⟩ | ⟨s, hs, K₁, v₁, t, hl₁, ht, rfl, rfl⟩
    · have hK₁ : K₁ ≠ K := by
        intro h
        exact hnephys (by rw [h])
      exact Or.inl ⟨K₁, v₁, by rw [lookupA_mErase_ne m hK₁]; exact hl₁,
        rfl, rfl⟩
    · have hK₁ : K₁ ≠ K := by
        intro h
        subst h
        rw [hl₁] at hl
        injection hl with hv
        subst hv
        exact hnidx (mem_indexKeysOf.mpr ⟨s, hs, t, ht, rfl⟩)
      exact Or.inr ⟨s, hs, K₁, v₁, t,
        by rw [lookupA_mErase_ne m hK₁]; exact hl₁, ht, rfl, rfl⟩
  · rintro (⟨K', v', hl', rfl, rfl⟩ | ⟨s, hs, K', v', t, hl', ht, rfl, rfl⟩)
    · have hK' : K' ≠ K := by
        intro h
        rw [h, lookupA_mErase_self] at hl'
        cases hl'
      rw [lookupA_mErase_ne m hK'] at hl'
      refine ⟨⟨(hiff _ _).mpr (Or.inl ⟨K', v', hl', rfl, rfl⟩), ?_⟩,
        physNotIdxKeys c hci hidx K' K v_old⟩
      intro h
      exact hK' (physKeyOf_inj c h)
    · have hK' : K' ≠ K := by
        intro h
        rw [h, lookupA_mErase_self] at hl'
        cases hl'
      rw [lookupA_mErase_ne m hK'] at hl'
      refine ⟨⟨(hiff _ _).mpr
        (Or.inr ⟨s, hs, K', v', t, hl', ht, rfl, rfl⟩), ?_⟩, ?_⟩
      · intro h
        exact physKeyOf_ne_idxEntryKey c hci (hidx s hs).1 (hidx s hs).2
          K t K' h.symm
      · intro hmem
        obtain ⟨s₂, hs₂, t₂, ht₂, heq⟩ := mem_indexKeysOf.mp hmem
        obtain ⟨_, _, hKeq⟩ := idxEntryKey_inj (hidx s hs).1 (hidx s₂ hs₂).1 heq
        exact hK' hKeq

theorem CleanState_of_lookup_eq {V : Type} (c : Ctx V) {e : Engine}
    {m₁ m₂ : List (KeyTup × V)}
    (h : ∀ X, lookupA m₁ X = lookupA m₂ X)
    (hnd : (m₂.map Prod.fst).Nodup) (hne : ∀ p ∈ m₂, p.1 ≠ [])
    (hcs : CleanState c e m₁) : CleanState c e m₂ := by
  obtain ⟨hs, _, _, hiff⟩ := hcs
  refine ⟨hs, hnd, hne, fun a b => ?_⟩
  rw [hiff a b]
  unfold EntrySpec
  simp only [h]

/-- On a well-formed state, `Collection.delete(K)` (key form, truthy `K`)
reads the live record and issues the physical plus index deletions when it
exists, or does nothing. -/
theorem deleteTrace_clean {V : Type} (c : Ctx V) {e : Engine}
    {m : List (KeyTup × V)}
    (hwf : CtxWF c) (hcs : CleanState c e m) (K : KeyTup) (hK : K ≠ []) :
    deleteTrace c e (.inl K) = .ok (match lookupA m K with
      | some v_old => (EOp.del (physKeyOf c K) ::
          (indexKeysOf c K v_old).map EOp.del,
        some ⟨v_old, none, false, none, true⟩)
      | none => ([], none)) := by
  obtain ⟨a, K', rfl⟩ : ∃ a t, K = a :: t := by
    cases K with
    | nil => exact absurd rfl hK
    | cons a t => exact ⟨a, t, rfl⟩
  have hgc := collGetRec_clean c hwf.1 hcs.1 hwf.2.2.2.1 (clean_hin hcs)
    (clean_hshape hwf hcs) (a :: K') hK none
  have hred : deleteTrace c e (.inl (a :: K')) =
      (collGetRec c e none (a :: K') none >>= fun r =>
        match r with
        | some rc =>
          match rc.key with
          | some k =>
            if k.isEmpty then .ok ([], none)
            else if rc.batch then .error "AssertionError"
            else .ok (EOp.del (physKeyOf c k) ::
                (rc.indexKeys.getD []).map EOp.del,
              some { rc with key := none, batch := false, indexKeys := none })
          | none => .ok ([], none)
        | none => .ok ([], none)) := rfl
  rw [hred, hgc]
  cases hl : lookupA m (a :: K') with
  | some v_old => rfl
  | none => rfl

/-- `Collection.delete(K)` on a well-formed state succeeds and erases `K`
from the abstract map. -/
theorem deleteM_clean {V : Type} (c : Ctx V) {e : Engine}
    {m : List (KeyTup × V)}
    (hwf : CtxWF c) (hcs : CleanState c e m) (K : KeyTup) (hK : K ≠ []) :
    ∃ p, deleteM c e (.inl K) = .ok p ∧ CleanState c p.1 (mErase m K) := by
  have htr := deleteTrace_clean c hwf hcs K hK
  unfold deleteM
  rw [htr]
  cases hl : lookupA m K with
  | some v_old =>
    exact ⟨_, rfl, delBlock_clean c hwf hcs K v_old hl⟩
  | none =>
    refine ⟨_, rfl, ?_⟩
    show CleanState c e (mErase m K)
    refine CleanState_of_lookup_eq c (fun X => ?_)
      (nodup_mErase hcs.2.1 K) (keysne_mErase hcs.2.2.1 K) hcs
    by_cases hX : X = K
    · subst hX
      rw [lookupA_mErase_self, hl]
    · rw [lookupA_mErase_ne m hX]

/-- On a well-formed state, `Collection.put(v, key=K, blind=False)` with a
truthy `K` issues: a purge of the overwritten record's physical and index
entries when indices exist and `K` is live, then the new physical write,
then the new index writes. -/
theorem putTrace_clean {V : Type} (c : Ctx V) {e : Engine}
    {m : List (KeyTup × V)}
    (hwf : CtxWF c) (hcs : CleanState c e m) (v : V) (K : KeyTup)
    (hK : K ≠ []) :
    putTrace c e (.inl v) (some K) false = .ok (
      ((if c.indices.isEmpty then []
        else match lookupA m K with
          | some v_old => EOp.del (physKeyOf c K) ::
              (indexKeysOf c K v_old).map EOp.del
          | none => []) : List EOp)
      ++ EOp.put (physKeyOf c K) (valBytesOf c v)
        :: (indexKeysOf c K v).map (fun k => EOp.put k []),
      ⟨v, some K, false, some (indexKeysOf c K v), true⟩) := by
  obtain ⟨a, K', rfl⟩ : ∃ a t, K = a :: t := by
    cases K with
    | nil => exact absurd rfl hK
    | cons a t => exact ⟨a, t, rfl⟩
  have hdel := deleteTrace_clean c hwf hcs (a :: K') hK
  have hbl : c.blindC = false := hwf.2.2.2.2.2
  have hred : putTrace c e (.inl v) (some (a :: K')) false =
      (if (!c.indices.isEmpty && !(false || c.blindC)) = true then
        deleteTrace c e (Sum.inl (a :: K')) >>= fun x =>
          match x with
          | (dops, _) =>
            Except.ok (dops ++ EOp.put (physKeyOf c (a :: K')) (valBytesOf c v)
              :: (indexKeysOf c (a :: K') v).map (fun k => EOp.put k []),
              ⟨v, some (a :: K'), false, some (indexKeysOf c (a :: K') v),
               true⟩)
      else
        Except.ok ([] ++ EOp.put (physKeyOf c (a :: K')) (valBytesOf c v)
          :: (indexKeysOf c (a :: K') v).map (fun k => EOp.put k []),
          ⟨v, some (a :: K'), false, some (indexKeysOf c (a :: K') v),
           true⟩)) := rfl
  rw [hred, hbl]
  by_cases hI : c.indices.isEmpty
  · rw [if_neg (by simp [hI]), if_pos hI]
  · rw [if_pos (by simp [hI]), if_neg hI]
    rw [hdel]
    cases hl : lookupA m (a :: K') with
    | some v_old => rfl
    | none => rfl

/-- `Collection.put(v, key=None, blind=False)` on a well-formed state:
the key is reassigned through the key function, and the trace is the
standard purge-then-write sequence at that key. -/
theorem putTrace_clean_none {V : Type} (c : Ctx V) {e : Engine}
    {m : List (KeyTup × V)}
    (hwf : CtxWF c) (hcs : CleanState c e m) (v : V) :
    putTrace c e (.inl v) none false = .ok (
      ((if c.indices.isEmpty then []
        else match lookupA m (c.keyFunc v) with
          | some v_old => EOp.del (physKeyOf c (c.keyFunc v)) ::
              (indexKeysOf c (c.keyFunc v) v_old).map EOp.del
          | none => []) : List EOp)
      ++ EOp.put (physKeyOf c (c.keyFunc v)) (valBytesOf c v)
        :: (indexKeysOf c (c.keyFunc v) v).map (fun k => EOp.put k []),
      ⟨v, some (c.keyFunc v), false, some (indexKeysOf c (c.keyFunc v) v),
       true⟩) := by
  have hdel := deleteTrace_clean c hwf hcs (c.keyFunc v) (hwf.2.2.2.2.1 v)
  have hbl : c.blindC = false := hwf.2.2.2.2.2
  have hred : putTrace c e (.inl v) none false =
      (if (!c.indices.isEmpty && !(false || c.blindC)) = true then
        deleteTrace c e (Sum.inl (c.keyFunc v)) >>= fun x =>
          match x with
          | (dops, _) =>
            Except.ok (dops ++
              EOp.put (physKeyOf c (c.keyFunc v)) (valBytesOf c v)
              :: (indexKeysOf c (c.keyFunc v) v).map (fun k => EOp.put k []),
              ⟨v, some (c.keyFunc v), false,
               some (indexKeysOf c (c.keyFunc v) v), true⟩)
      else
        Except.ok ([] ++
          EOp.put (physKeyOf c (c.keyFunc v)) (valBytesOf c v)
          :: (indexKeysOf c (c.keyFunc v) v).map (fun k => EOp.put k []),
          ⟨v, some (c.keyFunc v), false,
           some (indexKeysOf c (c.keyFunc v) v), true⟩)) := rfl
  rw [hred, hbl]
  by_cases hI : c.indices.isEmpty
  · rw [if_neg (by simp [hI]), if_pos hI]
  · rw [if_pos (by simp [hI]), if_neg hI]
    rw [hdel]
    cases hl : lookupA m (c.keyFunc v) with
    | some v_old => rfl
    | none => rfl

/-- `Collection.put` of a plain value on a well-formed state succeeds
and overwrites the stored key `K` with `v` in the abstract map, keeping
the state well-formed — abstracted over the trace equation. -/
theorem putM_clean_of_trace {V : Type} (c : Ctx V) {e : Engine}
    {m : List (KeyTup × V)}
    (hwf : CtxWF c) (hcs : CleanState c e m) (v : V) (key : Option KeyTup)
    (K : KeyTup) (hK : K ≠ [])
    (htr : putTrace c e (.inl v) key false = .ok (
      ((if c.indices.isEmpty then []
        else match lookupA m K with
          | some v_old => EOp.del (physKeyOf c K) ::
              (indexKeysOf c K v_old).map EOp.del
          | none => []) : List EOp)
      ++ EOp.put (physKeyOf c K) (valBytesOf c v)
        :: (indexKeysOf c K v).map (fun k => EOp.put k []),
      ⟨v, some K, false, some (indexKeysOf c K v), true⟩)) :
    ∃ p, putM c e (.inl v) key false = .ok p ∧
      CleanState c p.1 (mInsert m K v) := by
  unfold putM
  rw [htr]
  refine ⟨_, rfl, ?_⟩
  show CleanState c (applyOps e (_ ++ _)) (mInsert m K v)
  rw [applyOps_append]
  by_cases hI : c.indices.isEmpty
  · rw [if_pos hI]
    show CleanState c (applyOps e (EOp.put (physKeyOf c K) (valBytesOf c v)
      :: (indexKeysOf c K v).map (fun k => EOp.put k []))) (mInsert m K v)
    exact putBlock_clean c hwf hcs K v hK (Or.inl (List.isEmpty_iff.mp hI))
  · rw [if_neg hI]
    cases hl : lookupA m K with
    | none =>
      show CleanState c (applyOps (applyOps e [])
        (EOp.put (physKeyOf c K) (valBytesOf c v)
          :: (indexKeysOf c K v).map (fun k => EOp.put k [])))
        (mInsert m K v)
      exact putBlock_clean c hwf hcs K v hK (Or.inr hl)
    | some v_old =>
      have hd := delBlock_clean c hwf hcs K v_old hl
      have hp := putBlock_clean c hwf hd K v hK
        (Or.inr (lookupA_mErase_self m K))
      have hmm : mInsert (mErase m K) K v = mInsert m K v := by
        unfold mInsert
        rw [mErase_mErase]
      rw [hmm] at hp
      exact hp

/-- `Collection.put` of a plain value on a well-formed state, for any key
argument (explicit, empty, or omitted): it succeeds and overwrites the
stored key (`objKeyOf`) with `v` in the abstract map. -/
theorem putM_clean_any {V : Type} (c : Ctx V) {e : Engine}
    {m : List (KeyTup × V)}
    (hwf : CtxWF c) (hcs : CleanState c e m) (v : V) (key : Option KeyTup) :
    ∃ p, putM c e (.inl v) key false = .ok p ∧
      CleanState c p.1 (mInsert m (objKeyOf c v key) v) := by
  cases key with
  | none =>
    exact putM_clean_of_trace c hwf hcs v none (c.keyFunc v)
      (hwf.2.2.2.2.1 v) (putTrace_clean_none c hwf hcs v)
  | some k =>
    cases k with
    | nil =>
      have he : putTrace c e (.inl v) (some []) false =
          putTrace c e (.inl v) none false := rfl
      exact putM_clean_of_trace c hwf hcs v (some []) (c.keyFunc v)
        (hwf.2.2.2.2.1 v) (he.trans (putTrace_clean_none c hwf hcs v))
    | cons a k' =>
      exact putM_clean_of_trace c hwf hcs v (some (a :: k')) (a :: k')
        (fun h => List.noConfusion h)
        (putTrace_clean c hwf hcs v (a :: k') (fun h => List.noConfusion h))

theorem hasPfx_cPfx_idx {V : Type} {c : Ctx V} (hwf : CtxWF c)
    (K : KeyTup) (w : V) :
    ∀ a ∈ indexKeysOf c K w, hasPfx (cPfx c) a = false := by
  intro a ha
  obtain ⟨s, hs, t, ht, rfl⟩ := mem_indexKeysOf.mp ha
  rw [idxEntryKey_head _ (hwf.2.1 s hs).1]
  unfold cPfx
  rw [packInt_small _ hwf.1]
  show ((c.collIdx + 6 == s.idx + 6) && hasPfx [] (encTup t ++ encTup K))
    = false
  have hne : c.collIdx + 6 ≠ s.idx + 6 := by
    have := (hwf.2.1 s hs).2
    omega
  rw [beq_eq_false_iff_ne.mpr hne]
  rfl

theorem logiLoop_cons {V : Type} (c : Ctx V) (k v : Bytes) (rest : Engine)
    (rev : Bool) :
    logiLoop c ((k, v) :: rest) rev =
      (match unpacks (cPfx c) k with
      | [] => []
      | [key] =>
        match decompress v with
        | .error e => [.error e]
        | .ok d => .ok (false, key, d) :: logiLoop c rest rev
      | keys =>
        match decode_offsets v with
        | none => [.error "ValueError: bad varint"]
        | some (offsets, dstart) =>
          match decompress (v.drop dstart) with
          | .error e => [.error e]
          | .ok data =>
            batchYield keys.reverse offsets data
              (if rev then (List.range keys.length).reverse
               else List.range keys.length) ++ logiLoop c rest rev) := rfl

/-- On a well-formed state, the logical record stream over any selection
of engine entries starts with a decoded single record of a live key, or
is empty — no error and no batch appears at its head. -/
theorem logiLoop_head_clean {V : Type} (c : Ctx V) {e : Engine}
    {m : List (KeyTup × V)}
    (hwf : CtxWF c) (hcs : CleanState c e m) (rev : Bool) :
    ∀ l : Engine, (∀ kv ∈ l, kv ∈ e) →
      logiLoop c l rev = [] ∨ ∃ K₁ v₁ rest, lookupA m K₁ = some v₁ ∧
        logiLoop c l rev = .ok (false, K₁, c.vPack v₁) :: rest := by
  intro l hl
  cases l with
  | nil => exact Or.inl rfl
  | cons kv l' =>
    obtain ⟨k, v⟩ := kv
    have hmem : (k, v) ∈ e := hl _ (List.mem_cons_self _ _)
    rcases (hcs.2.2.2 k v).mp hmem with
      ⟨K₁, v₁, hlk, rfl, rfl⟩ | ⟨s, hs, K₁, v₁, t, hlk, ht, rfl, rfl⟩
    · refine Or.inr ⟨K₁, v₁, logiLoop c l' rev, hlk, ?_⟩
      rw [logiLoop_cons]
      rw [show physKeyOf c K₁ = cPfx c ++ encTup K₁ from rfl]
      rw [unpacks_single]
      rfl
    · refine Or.inl ?_
      rw [logiLoop_cons]
      have hpfx : hasPfx (cPfx c) (idxEntryKey s.idx t K₁) = false :=
        hasPfx_cPfx_idx hwf K₁ v₁ _
          (mem_indexKeysOf.mpr ⟨s, hs, t, ht, rfl⟩)
      rw [unpacks_mismatch _ _ hpfx]

/-- On a well-formed state, `Collection.get` with the empty key either
misses or hits the first live record (returned under the requested empty
key) — in particular it never raises. -/
theorem collGetCore_nil_clean {V : Type} (c : Ctx V) {e : Engine}
    {m : List (KeyTup × V)}
    (hwf : CtxWF c) (hcs : CleanState c e m) :
    collGetCore c e none [] = .ok none ∨
    ∃ K₁ v₁, lookupA m K₁ = some v₁ ∧
      collGetCore c e none [] = .ok (some (false, K₁, c.vPack v₁)) := by
  have hmem : ∀ kv ∈ engineIterF e (cPfx c ++ [1]), kv ∈ e :=
    fun kv hkv => (List.mem_filter.mp hkv).1
  have hred : collGetCore c e none [] =
      (match logicalIter c (engineIterF e (cPfx c ++ [1])) false with
        | [] => Except.ok none
        | .error msg :: _ => .error msg
        | .ok it :: _ => .ok (some it)) := rfl
  cases hE : engineIterF e (cPfx c ++ [1]) with
  | nil =>
    left
    rw [hred, hE]
    rfl
  | cons kv rest =>
    obtain ⟨k, v⟩ := kv
    have hall : ∀ x ∈ (k, v) :: rest, x ∈ e := by
      intro x hx
      exact hmem x (by rw [hE]; exact hx)
    rw [hred, hE, logicalIter_cons]
    by_cases hp : hasPfx (cPfx c) k
    · rw [if_pos hp]
      rcases logiLoop_head_clean c hwf hcs false ((k, v) :: rest) hall with
        hnil | ⟨K₁, v₁, rest', hlk, heq⟩
      · left
        rw [hnil]
      · right
        rw [heq]
        exact ⟨K₁, v₁, hlk, rfl⟩
    · rw [if_neg hp]
      rcases logiLoop_head_clean c hwf hcs false rest
        (fun x hx => hall x (List.mem_cons_of_mem _ hx)) with
        hnil | ⟨K₁, v₁, rest', hlk, heq⟩
      · left
        rw [hnil]
      · right
        rw [heq]
        exact ⟨K₁, v₁, hlk, rfl⟩

/-- `Collection.delete` with the empty (falsy) key is a no-op on a
well-formed state: `get((), rec=True)` returns a record carrying the
requested falsy key (or nothing), and `delete` then skips the whole
deletion branch. -/
theorem deleteTrace_nil_clean {V : Type} (c : Ctx V) {e : Engine}
    {m : List (KeyTup × V)}
    (hwf : CtxWF c) (hcs : CleanState c e m) :
    deleteTrace c e (.inl []) = .ok ([], none) := by
  have hred : deleteTrace c e (.inl ([] : KeyTup)) =
      (collGetRec c e none [] none >>= fun r =>
        match r with
        | some rc =>
          match rc.key with
          | some k =>
            if k.isEmpty then .ok ([], none)
            else if rc.batch then .error "AssertionError"
            else .ok (EOp.del (physKeyOf c k) ::
                (rc.indexKeys.getD []).map EOp.del,
              some { rc with key := none, batch := false, indexKeys := none })
          | none => .ok ([], none)
        | none => .ok ([], none)) := rfl
  rcases collGetCore_nil_clean c hwf hcs with hc | ⟨K₁, v₁, hlk, hc⟩
  · have hg : collGetRec c e none [] none = .ok none := by
      unfold collGetRec
      rw [hc]
      rfl
    rw [hred, hg]
    rfl
  · have hg : collGetRec c e none [] none =
        .ok (some ⟨v₁, some [], false, some (indexKeysOf c [] v₁), true⟩) := by
      unfold collGetRec
      rw [hc]
      show (match c.vUnpack (c.vPack v₁) with
        | none => (Except.error "ValueError: encoder unpack failed" :
            Except String (Option (Rec V)))
        | some v2 => Except.ok (some ⟨v2, some [], false,
            some (indexKeysOf c [] v2), true⟩)) = _
      rw [hwf.2.2.2.1 v₁]
    rw [hred, hg]
    rfl

/-- `Collection.delete` by key on a well-formed state, for any key
(truthy or falsy): it succeeds and erases the key from the abstract map
(a falsy key hits nothing, since well-formed states never store one). -/
theorem deleteM_clean_any {V : Type} (c : Ctx V) {e : Engine}
    {m : List (KeyTup × V)}
    (hwf : CtxWF c) (hcs : CleanState c e m) (k : KeyTup) :
    ∃ p, deleteM c e (.inl k) = .ok p ∧ CleanState c p.1 (mErase m k) := by
  cases k with
  | nil =>
    refine ⟨(e, none), ?_, ?_⟩
    · unfold deleteM
      rw [deleteTrace_nil_clean c hwf hcs]
      rfl
    · show CleanState c e (mErase m [])
      refine CleanState_of_lookup_eq c (fun X => ?_)
        (nodup_mErase hcs.2.1 []) (keysne_mErase hcs.2.2.1 []) hcs
      by_cases hX : X = []
      · subst hX
        rw [lookupA_mErase_self]
        show lookupA m [] = none
        unfold lookupA
        rw [List.find?_eq_none.mpr (fun x hx => by
          simp [hcs.2.2.1 x hx])]
        rfl
      · rw [lookupA_mErase_ne m hX]
  | cons a k' =>
    exact deleteM_clean c hwf hcs (a :: k') (fun h => List.noConfusion h)

/-- Any sequence of plain-value non-blind `put` calls (any key argument)
and `delete` calls (any key) starting from a well-formed state succeeds
and ends in a well-formed state. -/
theorem runActs_clean {V : Type} (c : Ctx V) (hwf : CtxWF c) :
    ∀ (acts : List (Act V)) (e : Engine) (m : List (KeyTup × V)),
      CleanState c e m → (∀ a ∈ acts, actOK a) →
      ∃ e', runActs c e acts = .ok e' ∧ ∃ m', CleanState c e' m' := by
  intro acts
  induction acts with
  | nil =>
    intro e m hcs _
    exact ⟨e, rfl, m, hcs⟩
  | cons a rest ih =>
    intro e m hcs hok
    have hok' : ∀ x ∈ rest, actOK x :=
      fun x hx => hok x (List.mem_cons_of_mem a hx)
    cases a with
    | putA v key bl =>
      have hbl : bl = false := hok _ (List.mem_cons_self _ _)
      subst hbl
      obtain ⟨p, hput, hclean⟩ := putM_clean_any c hwf hcs v key
      obtain ⟨e₂, r⟩ := p
      have hstep : runActs c e (Act.putA v key false :: rest) =
          (putM c e (.inl v) key false >>= fun x =>
            match x with | (e₂, _) => runActs c e₂ rest) := rfl
      rw [hstep, hput]
      exact ih e₂ (mInsert m (objKeyOf c v key) v) hclean hok'
    | delA k =>
      obtain ⟨p, hdel, hclean⟩ := deleteM_clean_any c hwf hcs k
      obtain ⟨e₂, r⟩ := p
      have hstep : runActs c e (Act.delA k :: rest) =
          (deleteM c e (.inl k) >>= fun x =>
            match x with | (e₂, _) => runActs c e₂ rest) := rfl
      rw [hstep, hdel]
      exact ih e₂ (mErase m k) hclean hok'

theorem engineFind_some {e : Engine} {X b : Bytes}
    (h : engineFind e X = some b) : (X, b) ∈ e := by
  unfold engineFind at h
  obtain ⟨kv, hfind, hb⟩ : ∃ kv, e.find? (fun kv => kv.1 == X) = some kv ∧
      kv.2 = b := by
    cases hf : e.find? (fun kv => kv.1 == X) with
    | none => rw [hf] at h; cases h
    | some kv => rw [hf] at h; exact ⟨kv, rfl, Option.some.inj h⟩
  have hmem := List.mem_of_find?_eq_some hfind
  have hfst : kv.1 = X := by simpa using List.find?_some hfind
  have : kv = (X, b) := Prod.ext hfst hb
  exact this ▸ hmem

/-- A well-formed state satisfies the index-consistency property. -/
theorem cleanConsistent {V : Type} {c : Ctx V} {e : Engine}
    {m : List (KeyTup × V)} (hwf : CtxWF c) (hcs : CleanState c e m) :
    indexConsistent c e := by
  obtain ⟨hci, hidx, hndidx, hrt, hkf, hbl⟩ := hwf
  obtain ⟨hsort, hnd, hne, hiff⟩ := hcs
  intro s hs K v hlive k
  have hlk : lookupA m K = some v := by
    unfold liveVal at hlive
    cases hf : engineFind e (physKeyOf c K) with
    | none =>
      rw [hf] at hlive
      cases hlive
    | some b =>
      rw [hf] at hlive
      have hmem := engineFind_some hf
      rcases (hiff _ _).mp hmem with
        ⟨K₁, v₁, hl₁, hkey, hval⟩ | ⟨s₂, hs₂, K₁, v₁, t, hl₁, ht, hkey, hval⟩
      · have hK₁ : K₁ = K := physKeyOf_inj c hkey.symm
        subst hK₁
        subst hval
        have hlive' : c.vUnpack (c.vPack v₁) = some v := hlive
        rw [hrt v₁] at hlive'
        rw [hl₁, Option.some.inj hlive']
      · exact absurd hkey (physKeyOf_ne_idxEntryKey c hci (hidx s₂ hs₂).1
          (hidx s₂ hs₂).2 K t K₁)
  unfold idxEntriesFor canonEntries
  constructor
  · intro hk
    obtain ⟨hkmem, hpred⟩ := List.mem_filter.mp hk
    rw [Bool.and_eq_true] at hpred
    obtain ⟨hpfx, hlast⟩ := hpred
    obtain ⟨kv, hkvmem, hfst⟩ := List.mem_map.mp hkmem
    obtain ⟨ka, kb⟩ := kv
    have hka : ka = k := hfst
    subst hka
    rcases (hiff ka kb).mp hkvmem with
      ⟨K₁, v₁, hl₁, hkey, _⟩ | ⟨s₂, hs₂, K₁, v₁, t, hl₁, ht, hkey, _⟩
    · exfalso
      subst hkey
      rw [physKeyOf_head c hci] at hpfx
      unfold iPfx at hpfx
      rw [packInt_small _ (hidx s hs).1] at hpfx
      simp [hasPfx] at hpfx
      exact (hidx s hs).2 (by omega)
    · subst hkey
      have hji : s₂.idx = s.idx := by
        rw [idxEntryKey_head _ (hidx s₂ hs₂).1] at hpfx
        unfold iPfx at hpfx
        rw [packInt_small _ (hidx s hs).1] at hpfx
        simp [hasPfx] at hpfx
        omega
      have hss : s₂ = s := List.inj_on_of_nodup_map hndidx hs₂ hs hji
      subst hss
      have hKK : K₁ = K := by
        rw [show idxEntryKey s₂.idx t K₁ =
            iPfx s₂.idx ++ (encTup t ++ encTup K₁) from by
          unfold idxEntryKey
          rw [List.append_assoc]] at hlast
        rw [unpacks_pair] at hlast
        have h2 : ([t, K₁].getLast? : Option KeyTup) = some K₁ := rfl
        rw [h2] at hlast
        simpa using hlast
      subst hKK
      rw [hlk] at hl₁
      have hv : v = v₁ := Option.some.inj hl₁
      subst hv
      exact List.mem_map.mpr ⟨t, ht, rfl⟩
  · intro hk
    obtain ⟨t, ht, rfl⟩ := List.mem_map.mp hk
    refine List.mem_filter.mpr ⟨?_, ?_⟩
    · have hmem : (idxEntryKey s.idx t K, ([] : Bytes)) ∈ e :=
        (hiff _ _).mpr (Or.inr ⟨s, hs, K, v, t, hlk, ht, rfl, rfl⟩)
      exact List.mem_map.mpr ⟨_, hmem, rfl⟩
    · rw [Bool.and_eq_true]
      refine ⟨?_, ?_⟩
      · rw [show idxEntryKey s.idx t K =
            iPfx s.idx ++ (encTup t ++ encTup K) from by
          unfold idxEntryKey
          rw [List.append_assoc]]
        exact hasPfx_append _ _
      · rw [show idxEntryKey s.idx t K =
            iPfx s.idx ++ (encTup t ++ encTup K) from by
          unfold idxEntryKey
          rw [List.append_assoc]]
        rw [unpacks_pair]
        simp

/-- C1 (counterexample): the unrestricted claim fails in two independent
ways on the indexed collection `ctx0`.  First, a `blind=True` put skips
the purge of the overwritten version's index entries: after
`put(1, key=(5,))` then `put(2, key=(5,), blind=True)` (the sequence
`acts0`), the index keys decoding to primary key `(5,)` still include the
stale entry of the overwritten value 1.  Second, even with `blind=False`
throughout, a put of a fetched `Record` under a new explicit key takes
the `rec.coll is self` branch and never purges the record previously live
at that key: from the two-record state `e2r` (reached by the plain
non-blind puts `acts1`), `get((5,), rec=True)` returns `rec5`, and
`put(rec5, key=(6,), blind=False)` yields `e3r`, where the live record at
`(6,)` has value 1 but the index entry of the overwritten value 2 (tuple
`(2,)`, primary key `(6,)`) survives. -/
theorem claim_C1_counterexample :
    (¬ ∀ e, runActs ctx0 [] acts0 = .ok e → indexConsistent ctx0 e) ∧
    runActs ctx0 [] acts1 = .ok e2r ∧
    collGetRec ctx0 e2r none [5] none = .ok (some rec5) ∧
    putM ctx0 e2r (.inr rec5) (some [6]) false =
      .ok (e3r, ⟨1, some [6], false,
        some [[17, 3, 2, 1, 3, 3, 3, 3, 3, 3, 2, 1]], true⟩) ∧
    ¬ indexConsistent ctx0 e3r := by
  refine ⟨?_, rfl, rfl, rfl, ?_⟩
  · intro h
    have he : runActs ctx0 [] acts0 = .ok e0 := rfl
    have hic := h e0 he
    have hmem : (⟨11, fun v => IdxRet.many [[v]]⟩ : IdxSpec Nat) ∈
        ctx0.indices := List.mem_cons_self _ _
    have hlive : liveVal ctx0 e0 [5] = some 2 := rfl
    have h2 := hic _ hmem [5] 2 hlive [17, 3, 2, 1, 3, 3, 3, 3, 3, 2, 1]
    have hin : ([17, 3, 2, 1, 3, 3, 3, 3, 3, 2, 1] : Bytes) ∈
        idxEntriesFor 11 e0 [5] := by decide
    have hnot : ([17, 3, 2, 1, 3, 3, 3, 3, 3, 2, 1] : Bytes) ∉
        canonEntries (⟨11, fun v => IdxRet.many [[v]]⟩ : IdxSpec Nat)
          [5] 2 := by decide
    exact hnot (h2.mp hin)
  · intro h
    have hmem : (⟨11, fun v => IdxRet.many [[v]]⟩ : IdxSpec Nat) ∈
        ctx0.indices := List.mem_cons_self _ _
    have hlive : liveVal ctx0 e3r [6] = some 1 := rfl
    have h2 := h _ hmem [6] 1 hlive [17, 3, 3, 2, 1, 3, 3, 3, 3, 3, 3, 2, 1]
    have hin : ([17, 3, 3, 2, 1, 3, 3, 3, 3, 3, 3, 2, 1] : Bytes) ∈
        idxEntriesFor 11 e3r [6] := by decide
    have hnot : ([17, 3, 3, 2, 1, 3, 3, 3, 3, 3, 3, 2, 1] : Bytes) ∉
        canonEntries (⟨11, fun v => IdxRet.many [[v]]⟩ : IdxSpec Nat)
          [6] 1 := by decide
    exact hnot (h2.mp hin)

/-- C1 (amended): for a well-formed collection context, every sequence of
`put(value, blind=False)` calls passing a plain (non-`Record`) value —
with any `key=` argument: an explicit tuple, the empty tuple, or omitted —
and `delete(K)` calls by key (any key), run from the empty engine,
succeeds, and in the final state every registered index is consistent:
for each live record `(K, v)` the engine keys under the index's prefix
that decode to primary key `K` are exactly
`{ pack(t ‖ K) : t ∈ normalize(idx.func(v)) }`. -/
theorem claim_C1 {V : Type} (c : Ctx V) (hwf : CtxWF c)
    (acts : List (Act V)) (hok : ∀ a ∈ acts, actOK a) :
    ∃ e, runActs c [] acts = .ok e ∧ indexConsistent c e := by
  have h0 : CleanState c ([] : Engine) ([] : List (KeyTup × V)) := by
    refine ⟨List.Pairwise.nil, List.nodup_nil, ?_, ?_⟩
    · intro p hp
      cases hp
    · intro a b
      constructor
      · intro h
        cases h
      · rintro (⟨K, v, hl, _, _⟩ | ⟨s, hs, K, v, t, hl, _, _, _⟩)
        · simp [lookupA] at hl
        · simp [lookupA] at hl
  obtain ⟨e', hrun, m', hclean⟩ := runActs_clean c hwf acts [] [] h0 hok
  exact ⟨e', hrun, cleanConsistent hwf hclean⟩

/-- C1 (witness): the amended theorem applied to the indexed collection
`ctx0` and the concrete call sequence `put(1, key=(5,))`, `put(2)` (key
omitted), `delete((5,))`, `delete(())` (falsy key). -/
theorem claim_C1_witness :
    CtxWF ctx0 ∧
    (∀ a ∈ ([Act.putA 1 (some [5]) false, Act.putA 2 none false,
      Act.delA [5], Act.delA []] : List (Act Nat)), actOK a) ∧
    ∃ e, runActs ctx0 [] [Act.putA 1 (some [5]) false,
      Act.putA 2 none false, Act.delA [5], Act.delA []] = .ok e ∧
      indexConsistent ctx0 e := by
  refine ⟨⟨by decide, by decide, by decide, fun v => rfl,
    fun v h => List.noConfusion h, rfl⟩, ?_, ?_⟩
  · intro a ha
    rcases List.mem_cons.mp ha with rfl | ha
    · exact rfl
    rcases List.mem_cons.mp ha with rfl | ha
    · exact rfl
    rcases List.mem_cons.mp ha with rfl | ha
    · exact trivial
    rcases List.mem_cons.mp ha with rfl | ha
    · exact trivial
    · cases ha
  · exact claim_C1 ctx0
      ⟨by decide, by decide, by decide, fun v => rfl,
       fun v h => List.noConfusion h, rfl⟩
      [Act.putA 1 (some [5]) false, Act.putA 2 none false,
       Act.delA [5], Act.delA []]
      (by
        intro a ha
        rcases List.mem_cons.mp ha with rfl | ha
        · exact rfl
        rcases List.mem_cons.mp ha with rfl | ha
        · exact rfl
        rcases List.mem_cons.mp ha with rfl | ha
        · exact trivial
        rcases List.mem_cons.mp ha with rfl | ha
        · exact trivial
        · cases ha)

theorem zDec_zEnc (z : Int) : zDec (zEnc z) = z := by
  unfold zEnc zDec
  by_cases h : 0 ≤ z
  · rw [if_pos h, if_pos (by omega)]
    omega
  · rw [if_neg h, if_neg (by omega)]
    omega

theorem counterCtx_rt : ∀ v : Nat × Int,
    counterCtx.vUnpack (counterCtx.vPack v) = some v := by
  rintro ⟨a, z⟩
  show (match parseTup (encTup [a, zEnc z]).length (encTup [a, zEnc z]) with
    | some ([n, cz], []) => some (n, zDec cz)
    | _ => none) = some (a, z)
  have hlen : ([a, zEnc z] : KeyTup).length < (encTup [a, zEnc z]).length := by
    show 2 < (encElem a ++ (encElem (zEnc z) ++ [1])).length
    simp [encElem]
    omega
  have h := parseTup_rt [a, zEnc z] [] _ hlen
  rw [List.append_nil] at h
  rw [h]
  show some (a, zDec (zEnc z)) = some (a, z)
  rw [zDec_zEnc]

theorem hwfCounter : CtxWF counterCtx :=
  ⟨by decide, by decide, by decide, counterCtx_rt,
   fun _ h => List.noConfusion h, rfl⟩

theorem engineFind_of_mem {e : Engine} (he : ESorted e) {k b : Bytes}
    (hmem : (k, b) ∈ e) : engineFind e k = some b := by
  induction e with
  | nil => cases hmem
  | cons hd t ih =>
    obtain ⟨k', b'⟩ := hd
    rcases List.mem_cons.mp hmem with heq | hmem'
    · injection heq with h1 h2
      unfold engineFind
      rw [find?_cons_eq, if_pos (by simp [h1])]
      show some b' = some b
      rw [h2]
    · have hk := (List.pairwise_cons.mp he).1 (k, b) hmem'
      have hne : ¬ ((k' == k) = true) := by
        intro hc
        rw [beq_iff_eq] at hc
        rw [hc, bltB_irrefl] at hk
        cases hk
      unfold engineFind
      rw [find?_cons_eq, if_neg hne]
      exact ih (List.Pairwise.of_cons he) hmem'

/-- The empty engine is well-formed with the empty abstract map. -/
theorem cleanNil {V : Type} (c : Ctx V) : CleanState c [] [] := by
  refine ⟨List.Pairwise.nil, List.nodup_nil, ?_, ?_⟩
  · intro p hp
    cases hp
  · intro a b
    constructor
    · intro h
      cases h
    · rintro (⟨K, v, hl, _, _⟩ | ⟨s, hs, K, v, t, hl, _, _, _⟩) <;>
        simp [lookupA] at hl

/-- `Store.count` on a well-formed counter state: it returns the stored
value (or `init`), leaves the engine untouched when `n = 0`, and otherwise
writes back the sum, preserving well-formedness. -/
theorem count_clean (e : Engine) (m : List (KeyTup × (Nat × Int)))
    (hcs : CleanState counterCtx e m) (name : Nat) (n init : Int) :
    ∃ e', Store.count e name n init =
        .ok (((lookupA m [name]).map (·.2)).getD init, e') ∧
      (n = 0 → e' = e) ∧
      (n ≠ 0 → CleanState counterCtx e' (mInsert m [name]
        (name, ((lookupA m [name]).map (·.2)).getD init + n))) := by
  have hin := clean_hin hcs
  have hshape := clean_hshape hwfCounter hcs
  have hgc := collGetRec_clean counterCtx (by decide) hcs.1 counterCtx_rt hin
    hshape [name] (fun h => List.noConfusion h) (some (name, init))
  have hred : Store.count e name n init =
      (collGetRec counterCtx e none [name] (some (name, init)) >>= fun r =>
        match r with
        | none => .error "unreachable"
        | some rc =>
          if n ≠ 0 then
            putM counterCtx e (.inr { rc with data := (name, rc.data.2 + n) })
              none false >>= fun x =>
              match x with | (eng, _) => .ok (rc.data.2, eng)
          else .ok (rc.data.2, e)) := rfl
  cases hl : lookupA m [name] with
  | some v =>
    obtain ⟨a, w⟩ := v
    rw [hl] at hgc
    by_cases hn : n = 0
    · subst hn
      refine ⟨e, ?_, fun _ => rfl, fun h => absurd rfl h⟩
      rw [hred, hgc]
      rfl
    · have hput : putM counterCtx e
          (.inr ⟨(name, w + n), some [name], false, some [], true⟩)
          none false =
          .ok (applyOps e
            (((if (some [name] : Option KeyTup) ≠ some [name]
              then [EOp.del (cPfx counterCtx ++ encTup [name])] else [])
              ++ []) ++
              [EOp.put (physKeyOf counterCtx [name])
                (valBytesOf counterCtx (name, w + n))]),
            ⟨(name, w + n), some [name], false, some [], true⟩) := rfl
      rw [if_neg (not_not_intro rfl)] at hput
      refine ⟨enginePut e (physKeyOf counterCtx [name])
        (valBytesOf counterCtx (name, w + n)), ?_, fun h0 => absurd h0 hn,
        fun _ => ?_⟩
      · rw [hred, hgc]
        show (if n ≠ 0 then
            putM counterCtx e (.inr ⟨(name, w + n), some [name], false,
              some [], true⟩) none false >>= fun x =>
              match x with | (eng, _) => Except.ok (w, eng)
          else Except.ok (w, e)) = _
        rw [if_pos hn, hput]
        rfl
      · show CleanState counterCtx (applyOps e
          (EOp.put (physKeyOf counterCtx [name])
            (valBytesOf counterCtx (name, w + n)) ::
            (indexKeysOf counterCtx [name] (name, w + n)).map
              (fun k => EOp.put k [])))
          (mInsert m [name] (name, w + n))
        exact putBlock_clean counterCtx hwfCounter hcs [name] (name, w + n)
          (fun h => List.noConfusion h) (Or.inl rfl)
  | none =>
    rw [hl] at hgc
    by_cases hn : n = 0
    · subst hn
      refine ⟨e, ?_, fun _ => rfl, fun h => absurd rfl h⟩
      rw [hred, hgc]
      rfl
    · have hput : putM counterCtx e
          (.inr ⟨(name, init + n), none, false, none, true⟩) none false =
          .ok (applyOps e ([] ++ [EOp.put (physKeyOf counterCtx [name])
            (valBytesOf counterCtx (name, init + n))]),
            ⟨(name, init + n), some [name], false, some [], true⟩) := rfl
      refine ⟨enginePut e (physKeyOf counterCtx [name])
        (valBytesOf counterCtx (name, init + n)), ?_, fun h0 => absurd h0 hn,
        fun _ => ?_⟩
      · rw [hred, hgc]
        show (if n ≠ 0 then
            putM counterCtx e (.inr ⟨(name, init + n), none, false, none,
              true⟩) none false >>= fun x =>
              match x with | (eng, _) => Except.ok (init, eng)
          else Except.ok (init, e)) = _
        rw [if_pos hn, hput]
        rfl
      · show CleanState counterCtx (applyOps e
          (EOp.put (physKeyOf counterCtx [name])
            (valBytesOf counterCtx (name, init + n)) ::
            (indexKeysOf counterCtx [name] (name, init + n)).map
              (fun k => EOp.put k [])))
          (mInsert m [name] (name, init + n))
        exact putBlock_clean counterCtx hwfCounter hcs [name] (name, init + n)
          (fun h => List.noConfusion h) (Or.inl rfl)

/-- A run of `Store.count` calls with positive deltas returns a strictly
increasing sequence, whose first element is the initial stored value. -/
theorem runCounts_clean (name : Nat) :
    ∀ (ds : List Int) (e : Engine) (m : List (KeyTup × (Nat × Int))),
      CleanState counterCtx e m → (∀ d ∈ ds, 0 < d) →
      ∃ rs e', runCounts e name ds = .ok (rs, e') ∧
        List.Chain' (· < ·) rs ∧
        ∀ r0 ∈ rs.head?, r0 = ((lookupA m [name]).map (·.2)).getD 1 := by
  intro ds
  induction ds with
  | nil =>
    intro e m hcs _
    exact ⟨[], e, rfl, List.chain'_nil, by intro r0 h; simp at h⟩
  | cons d ds ih =>
    intro e m hcs hpos
    have hd : 0 < d := hpos d (List.mem_cons_self _ _)
    obtain ⟨e₁, heq, _, hcl⟩ := count_clean e m hcs name d 1
    have hclean₁ := hcl (by omega)
    obtain ⟨rs', e'', hrun', hchain', hhead'⟩ := ih e₁
      (mInsert m [name] (name, ((lookupA m [name]).map (·.2)).getD 1 + d))
      hclean₁ (fun x hx => hpos x (List.mem_cons_of_mem d hx))
    have hstep : runCounts e name (d :: ds) =
        (Store.count e name d 1 >>= fun x =>
          match x with
          | (r, e') => runCounts e' name ds >>= fun y =>
            match y with
            | (rs, e'') => Except.ok (r :: rs, e'')) := rfl
    refine ⟨((lookupA m [name]).map (·.2)).getD 1 :: rs', e'', ?_, ?_, ?_⟩
    · rw [hstep, heq]
      show (runCounts e₁ name ds >>= fun y => match y with
        | (rs, e'') => Except.ok
            (((lookupA m [name]).map (·.2)).getD 1 :: rs, e'')) = _
      rw [hrun']
      rfl
    · rw [List.chain'_cons']
      refine ⟨?_, hchain'⟩
      intro b hb
      have hb2 := hhead' b hb
      rw [lookupA_mInsert_self] at hb2
      show ((lookupA m [name]).map (·.2)).getD 1 < b
      rw [hb2]
      show ((lookupA m [name]).map (·.2)).getD 1 <
        ((lookupA m [name]).map (·.2)).getD 1 + d
      omega
    · intro r0 h
      exact (Option.mem_some_iff.mp h).symm

/-- C4: on a well-formed counter state, `Store.count(name, n, init)`
returns the stored value of the counter (`init` if absent); with `n = 0`
the engine is unchanged; with `n ≠ 0` the stored value afterwards is the
returned value plus `n`; and a sequence of calls with positive deltas
returns a strictly increasing sequence of values. -/
theorem claim_C4 (e : Engine) (m : List (KeyTup × (Nat × Int)))
    (hcs : CleanState counterCtx e m) (name : Nat) (n init : Int) :
    (∃ e', Store.count e name n init =
        .ok (((lookupA m [name]).map (·.2)).getD init, e') ∧
      (n = 0 → e' = e) ∧
      (n ≠ 0 → liveCounterVal e' name =
        some (((lookupA m [name]).map (·.2)).getD init + n))) ∧
    (∀ ds : List Int, (∀ d ∈ ds, 0 < d) →
      ∃ rs e'', runCounts e name ds = .ok (rs, e'') ∧
        List.Chain' (· < ·) rs) := by
  constructor
  · obtain ⟨e', heq, h0, hcl⟩ := count_clean e m hcs name n init
    refine ⟨e', heq, h0, fun hn => ?_⟩
    have hclean := hcl hn
    have hmem : (physKeyOf counterCtx [name],
        valBytesOf counterCtx
          (name, ((lookupA m [name]).map (·.2)).getD init + n)) ∈ e' :=
      clean_hin hclean [name] _ (lookupA_mInsert_self _ _ _)
    have hfind := engineFind_of_mem hclean.1 hmem
    unfold liveCounterVal
    rw [hfind]
    show (counterCtx.vUnpack (counterCtx.vPack
      (name, ((lookupA m [name]).map (·.2)).getD init + n))).map (·.2) = _
    rw [counterCtx_rt]
    rfl
  · intro ds hds
    obtain ⟨rs, e'', hrun, hchain, _⟩ := runCounts_clean name ds e m hcs hds
    exact ⟨rs, e'', hrun, hchain⟩

/-- C4 (witness): the counter contract applied to the empty store with
`count(3, n=2, init=1)`. -/
theorem claim_C4_witness :
    CleanState counterCtx [] [] ∧
    ((∃ e', Store.count [] 3 2 1 =
        .ok (((lookupA ([] : List (KeyTup × (Nat × Int))) [3]).map
          (·.2)).getD 1, e') ∧
      ((2 : Int) = 0 → e' = []) ∧
      ((2 : Int) ≠ 0 → liveCounterVal e' 3 =
        some (((lookupA ([] : List (KeyTup × (Nat × Int))) [3]).map
          (·.2)).getD 1 + 2))) ∧
    (∀ ds : List Int, (∀ d ∈ ds, 0 < d) →
      ∃ rs e'', runCounts [] 3 ds = .ok (rs, e'') ∧
        List.Chain' (· < ·) rs)) :=
  ⟨cleanNil counterCtx, claim_C4 [] [] (cleanNil counterCtx) 3 2 1⟩

theorem pairwise_of_const {x : Nat} :
    ∀ {l : List Nat}, (∀ y ∈ l, y = x) → List.Pairwise (· ≤ ·) l := by
  intro l
  induction l with
  | nil => intro _; exact List.Pairwise.nil
  | cons b t ih =>
    intro h
    refine List.Pairwise.cons ?_
      (ih (fun y hy => h y (List.mem_cons_of_mem b hy)))
    intro y hy
    rw [h b (List.mem_cons_self _ _), h y (List.mem_cons_of_mem b hy)]

theorem sorted_cls {l1 l2 : List Nat} (h1 : ∀ x ∈ l1, x = 2)
    (h2 : ∀ x ∈ l2, x = 4) :
    List.Sorted (· ≤ ·) ((1 :: l1) ++ 3 :: l2) := by
  refine List.pairwise_append.mpr ⟨List.Pairwise.cons (fun y hy => by rw [h1 y hy]; omega)
    (pairwise_of_const h1),
    List.Pairwise.cons (fun y hy => by rw [h2 y hy]; omega)
    (pairwise_of_const h2), ?_⟩
  intro a ha b hb
  rcases List.mem_cons.mp ha with rfl | ha
  · rcases List.mem_cons.mp hb with rfl | hb
    · omega
    · rw [h2 b hb]
      omega
  · rw [h1 a ha]
    rcases List.mem_cons.mp hb with rfl | hb
    · omega
    · rw [h2 b hb]
      omega

/-- C7: within one `Collection.put` and within one `Collection.delete`
(truthy key, non-blind, well-formed state), the classes of the issued
engine operations — 1 old physical deletion, 2 old index deletions,
3 new physical write, 4 new index writes — appear in nondecreasing
order. -/
theorem claim_C7 {V : Type} (c : Ctx V) {e : Engine}
    {m : List (KeyTup × V)}
    (hwf : CtxWF c) (hcs : CleanState c e m) (K : KeyTup) (hK : K ≠ [])
    (v : V) :
    (∀ ops r, putTrace c e (.inl v) (some K) false = .ok (ops, r) →
      List.Sorted (· ≤ ·) (ops.map (opClass c))) ∧
    (∀ ops r, deleteTrace c e (.inl K) = .ok (ops, r) →
      List.Sorted (· ≤ ·) (ops.map (opClass c))) := by
  have hphys3 : opClass c (EOp.put (physKeyOf c K) (valBytesOf c v)) = 3 := by
    show (if hasPfx (cPfx c) (cPfx c ++ encTup K) then 3 else 4) = 3
    rw [if_pos (hasPfx_append (cPfx c) (encTup K))]
  have hphys1 : opClass c (EOp.del (physKeyOf c K)) = 1 := by
    show (if hasPfx (cPfx c) (cPfx c ++ encTup K) then 1 else 2) = 1
    rw [if_pos (hasPfx_append (cPfx c) (encTup K))]
  have hidel : ∀ (w : V) y,
      y ∈ (indexKeysOf c K w).map (fun a => opClass c (EOp.del a)) →
      y = 2 := by
    intro w y hy
    obtain ⟨a, ha, rfl⟩ := List.mem_map.mp hy
    show (if hasPfx (cPfx c) a then 1 else 2) = 2
    rw [hasPfx_cPfx_idx hwf K w a ha]
    rfl
  have hiput : ∀ (w : V) y,
      y ∈ (indexKeysOf c K w).map (fun a => opClass c (EOp.put a [])) →
      y = 4 := by
    intro w y hy
    obtain ⟨a, ha, rfl⟩ := List.mem_map.mp hy
    show (if hasPfx (cPfx c) a then 3 else 4) = 4
    rw [hasPfx_cPfx_idx hwf K w a ha]
    rfl
  constructor
  · intro ops r heq
    rw [putTrace_clean c hwf hcs v K hK] at heq
    injection heq with h
    injection h with h1 h2
    subst h1
    rw [List.map_append, List.map_cons, List.map_map]
    by_cases hI : c.indices.isEmpty
    · rw [if_pos hI]
      rw [List.map_nil, List.nil_append, hphys3]
      exact List.Pairwise.cons
        (fun y hy => by rw [hiput v y hy]; omega)
        (pairwise_of_const (hiput v))
    · rw [if_neg hI]
      cases hl : lookupA m K with
      | none =>
        rw [List.map_nil, List.nil_append, hphys3]
        exact List.Pairwise.cons
          (fun y hy => by rw [hiput v y hy]; omega)
          (pairwise_of_const (hiput v))
      | some v_old =>
        rw [List.map_cons, List.map_map, hphys1, hphys3]
        exact sorted_cls (hidel v_old) (hiput v)
  · intro ops r heq
    rw [deleteTrace_clean c hwf hcs K hK] at heq
    cases hl : lookupA m K with
    | none =>
      rw [hl] at heq
      injection heq with h
      injection h with h1 h2
      subst h1
      exact List.Pairwise.nil
    | some v_old =>
      rw [hl] at heq
      injection heq with h
      injection h with h1 h2
      subst h1
      rw [List.map_cons, List.map_map, hphys1]
      exact List.Pairwise.cons
        (fun y hy => by rw [hidel v_old y hy]; omega)
        (pairwise_of_const (hidel v_old))

/-- C7 (witness): the ordering theorem applied to `ctx0` on the empty
state with key `(5,)` and value 7. -/
theorem claim_C7_witness :
    CtxWF ctx0 ∧ CleanState ctx0 [] [] ∧ ([5] : KeyTup) ≠ [] ∧
    ((∀ ops r, putTrace ctx0 [] (.inl 7) (some [5]) false = .ok (ops, r) →
      List.Sorted (· ≤ ·) (ops.map (opClass ctx0))) ∧
    (∀ ops r, deleteTrace ctx0 [] (.inl [5]) = .ok (ops, r) →
      List.Sorted (· ≤ ·) (ops.map (opClass ctx0)))) :=
  ⟨⟨by decide, by decide, by decide, fun v => rfl,
    fun v h => List.noConfusion h, rfl⟩,
   cleanNil ctx0, fun h => List.noConfusion h,
   claim_C7 ctx0
     ⟨by decide, by decide, by decide, fun v => rfl,
      fun v h => List.noConfusion h, rfl⟩
     (cleanNil ctx0) [5] (fun h => List.noConfusion h) 7⟩

/-- C3 (code bug): deleting a record that lives in a multi-record batch
does not explode the batch — `Collection._split_batch`'s body begins with
`assert False`, so the call raises `AssertionError`.  Concretely: key
`(5,)` is live inside the three-record batch `eBatch` (its loaded record
carries `batch=True`), and `Collection.delete((5,))` fails. -/
theorem claim_C3 :
    (∃ rc, collGetRec ctx1 eBatch none [5] none = .ok (some rc) ∧
      rc.batch = true) ∧
    deleteM ctx1 eBatch (.inl [5]) = .error "AssertionError" :=
  ⟨⟨⟨4, some [5], true, some [], true⟩, rfl, rfl⟩, rfl⟩

/-- C6 (code bug): `Collection.batch` never returns the documented
`(items_consumed, batches_written, last_key)` triple — its Python body
ends without a `return`, so every successful call evaluates to `None`. -/
theorem claim_C6 {V : Type} (c : Ctx V) (e : Engine) (lo hi : Option KeyTup)
    (maxRecs maxBytes : Option Nat) (preserve : Bool) (maxPhys : Option Nat)
    (grouper : Option (V → Nat)) :
    ∀ p, Collection.batch c e lo hi maxRecs maxBytes preserve maxPhys
      grouper = .ok p → p.2 = none := by
  intro p hp
  unfold Collection.batch at hp
  by_cases h : maxBytes.isNone && maxRecs.isNone
  · rw [if_pos h] at hp
    cases hp
  · rw [if_neg h] at hp
    have hp1 : (batchLoop c maxRecs maxBytes grouper preserve
        (collIter c e none none lo hi false none maxPhys true) [] [] none >>=
        fun x => match x with
        | (ops, items) =>
          Except.ok (applyOps e (ops ++ Collection.write_batch c items),
            (none : Option (Nat × Nat × Option KeyTup)))) = Except.ok p := hp
    cases hb : batchLoop c maxRecs maxBytes grouper preserve
        (collIter c e none none lo hi false none maxPhys true) [] [] none with
    | error msg =>
      rw [hb] at hp1
      cases hp1
    | ok q =>
      rw [hb] at hp1
      obtain ⟨ops, items⟩ := q
      have hp2 : Except.ok (applyOps e (ops ++ Collection.write_batch c items),
          (none : Option (Nat × Nat × Option KeyTup))) = Except.ok p := hp1
      injection hp2 with h2
      rw [← h2]

/-- C6 (witness): a successful `batch` call with `max_recs` set on an
empty engine returns `None` in place of the triple. -/
theorem claim_C6_witness :
    Collection.batch ctx1 [] none none (some 5) none false none none =
      .ok ([], none) ∧
    (([], none) : Engine × Option (Nat × Nat × Option KeyTup)).2 = none :=
  ⟨rfl, claim_C6 ctx1 [] none none (some 5) none false none none
    ([], none) rfl⟩

/-- C8 (code bug): `Collection.gets` does not yield one `get` per input
key — its generator evaluates the unbound name `x`, so on the two-key
input `[(1,), (2,)]` it raises `NameError` at the first element, while the
specified behaviour would yield `get((1,)), get((2,))`. -/
theorem claim_C8 :
    Collection.gets ctx1 [] [[1], [2]] none =
      [.error "NameError: name x is not defined"] ∧
    Collection.getsSpec ctx1 [] [[1], [2]] none = [.ok none, .ok none] ∧
    Collection.gets ctx1 [] [[1], [2]] none ≠
      Collection.getsSpec ctx1 [] [[1], [2]] none :=
  ⟨rfl, rfl, fun h => by
    have h2 : [Except.error "NameError: name x is not defined"] =
        ([.ok none, .ok none] : List (Except String (Option Nat))) := h
    injection h2 with h3 h4
    exact List.noConfusion h4⟩

/-- C9: `next_greater` on a non-empty bytestring of all `0xFF` bytes
returns the empty (falsy) string; on any other non-empty bytestring it
returns a non-empty string strictly greater than the input and strictly
greater than every bytestring having the input as a prefix. -/
theorem claim_C9 (s : Bytes) (hne : s ≠ [])
    (hbytes : ∀ b ∈ s, b < 256) :
    ((∀ b ∈ s, b = 255) → next_greater s = []) ∧
    ((∃ b ∈ s, b ≠ 255) →
      next_greater s ≠ [] ∧ bltB s (next_greater s) = true ∧
      ∀ t : Bytes, hasPfx s t = true → bltB t (next_greater s) = true) :=
  next_greater_spec s hne hbytes

/-- C9 (witness): the theorem applied at the concrete strings `(255, 7)`
(mixed) — and the all-`0xFF` case is exercised through the first
conjunct's hypothesis being refutable there. -/
theorem claim_C9_witness :
    (([255, 7] : Bytes) ≠ [] ∧ ∀ b ∈ ([255, 7] : Bytes), b < 256) ∧
    (((∀ b ∈ ([255, 7] : Bytes), b = 255) → next_greater [255, 7] = []) ∧
     ((∃ b ∈ ([255, 7] : Bytes), b ≠ 255) →
       next_greater [255, 7] ≠ [] ∧
       bltB [255, 7] (next_greater [255, 7]) = true ∧
       ∀ t : Bytes, hasPfx [255, 7] t = true →
         bltB t (next_greater [255, 7]) = true)) :=
  ⟨⟨by decide, by decide⟩, claim_C9 [255, 7] (by decide) (by decide)⟩

/-- C10: `Index.has` and `Index.get` return the same result whether or not
a transaction handle is supplied — neither forwards `txn` to the
underlying index scan, which always reads the store's engine.  The final
four conjuncts show the lookups genuinely read that engine: on the
populated engine `e0` (index entry `(2,)` for live key `(5,)` → value 2)
they answer positively even when handed the empty engine as `txn`, while
on an empty engine (the state `txn` named) they answer negatively. -/
theorem claim_C10 {V : Type} (c : Ctx V) (sIdx : Nat) (e : Engine)
    (txn : Option Engine) (x : KeyTup) (default : Option V) :
    Index.has c sIdx e txn x = Index.has c sIdx e none x ∧
    Index.get c sIdx e txn x default = Index.get c sIdx e none x default ∧
    Index.has ctx0 11 e0 (some []) [2] = .ok true ∧
    Index.has ctx0 11 [] none [2] = .ok false ∧
    Index.get ctx0 11 e0 (some []) [2] none = .ok (some 2) ∧
    Index.get ctx0 11 [] none [2] none = .ok none :=
  ⟨rfl, rfl, rfl, rfl, rfl, rfl⟩

end CentiSpec
